import Mathlib

/-!
# Verification of the wyag object database and reference layer

A shallow embedding, in Lean 4, of the core of `libwyag.py`: the byte-string
primitives the code relies on (Python slicing and `bytes.find`), the KVLM
(commit/tag) codec, the tree codec, SHA-1, the object store, the reference
resolver, and the revision resolver.  Machine bytes are modelled as natural
numbers below 256 inside `List Nat`; fallible Python code (exceptions,
failed assertions and non-termination) is modelled with `Option`, with
recursion fuel standing in for Python's unbounded recursion.
-/

namespace Wyag

/-- A byte string: Python `bytes`, as a list of naturals (each < 256 for
well-formed data). -/
abbrev Bytes := List Nat

/-- Python index adjustment for slice bounds: negative indices count from the
end, and the result is clamped into `[0, n]`. -/
def pyidx (n : Nat) (i : Int) : Nat :=
  let j : Int := if i < 0 then i + n else i
  if j < 0 then 0 else min j.toNat n

/-- Python slicing `s[a:b]` with full negative-index and clamping semantics. -/
def pyslice (s : Bytes) (a b : Int) : Bytes :=
  List.drop (pyidx s.length a) (List.take (pyidx s.length b) s)

/-- Helper for `bfind`: absolute index (offset `i`) of the first occurrence of
`c` in `l`, or `-1`. -/
def bfindAux (c : Nat) : Bytes → Nat → Int
  | [], _ => -1
  | b :: rest, i => if b = c then (i : Int) else bfindAux c rest (i + 1)

/-- Python `raw.find(bytes([c]), start)`: first index of byte `c` at or after
`start` (with Python's adjustment of a negative `start`), or `-1`. -/
def bfind (raw : Bytes) (c : Nat) (start : Int) : Int :=
  bfindAux c (raw.drop (pyidx raw.length start)) (pyidx raw.length start)

section BytesLemmas

theorem pyidx_ofNat (n : Nat) (i : Nat) : pyidx n (i : Int) = min i n := by
  unfold pyidx
  rw [if_neg (by omega), if_neg (by omega)]
  simp

theorem pyidx_le (n : Nat) (i : Nat) (h : i ≤ n) : pyidx n (i : Int) = i := by
  rw [pyidx_ofNat]; omega

theorem pyslice_drop (s : Bytes) (a : Nat) (ha : a ≤ s.length) :
    pyslice s (a : Int) (s.length : Int) = s.drop a := by
  rw [pyslice, pyidx_le _ _ ha, pyidx_le s.length s.length le_rfl,
    List.take_length]

theorem pyslice_nat (s : Bytes) (a b : Nat) (hb : b ≤ s.length) :
    pyslice s (a : Int) (b : Int) = (s.take b).drop a := by
  rw [pyslice, pyidx_le _ _ hb, pyidx_ofNat]
  rcases le_or_lt a s.length with h | h
  · rw [min_eq_left h]
  · have h1 : (s.take b).drop s.length = [] := List.drop_eq_nil_of_le (by simp)
    have h2 : (s.take b).drop a = [] := by
      apply List.drop_eq_nil_of_le
      rw [List.length_take]
      omega
    rw [min_eq_right (by omega), h1, h2]

theorem bfindAux_append_not_mem (c : Nat) (u w : Bytes) (i : Nat) (h : c ∉ u) :
    bfindAux c (u ++ w) i = bfindAux c w (i + u.length) := by
  induction u generalizing i with
  | nil => simp
  | cons b rest ih =>
    simp only [List.mem_cons, not_or] at h
    have hbc : b ≠ c := fun hh => h.1 hh.symm
    simp only [List.cons_append, List.append_eq, bfindAux, if_neg hbc]
    rw [ih _ h.2]
    have harith : i + 1 + rest.length = i + (b :: rest).length := by
      simp; omega
    rw [harith]

theorem bfindAux_cons_self (c : Nat) (w : Bytes) (i : Nat) :
    bfindAux c (c :: w) i = (i : Int) := by
  simp [bfindAux]

theorem bfindAux_not_mem (c : Nat) (w : Bytes) (i : Nat) (h : c ∉ w) :
    bfindAux c w i = -1 := by
  induction w generalizing i with
  | nil => rfl
  | cons b rest ih =>
    simp only [List.mem_cons, not_or] at h
    have hbc : b ≠ c := fun hh => h.1 hh.symm
    simp only [bfindAux, if_neg hbc]
    exact ih _ h.2

theorem bfindAux_ge (c : Nat) (w : Bytes) (i : Nat) (h : c ∈ w) :
    (i : Int) ≤ bfindAux c w i := by
  induction w generalizing i with
  | nil => cases h
  | cons b rest ih =>
    simp only [bfindAux]
    split
    · exact le_rfl
    · rcases List.mem_cons.mp h with h1 | h2
      · omega
      · have := ih (i + 1) h2
        omega

/-- Locating a byte after a clean (occurrence-free) stretch: if
`raw.drop start = u ++ c :: w` with `c ∉ u`, the find lands exactly at
`start + u.length`. -/
theorem bfind_eq (raw : Bytes) (c : Nat) (start : Nat) (u w : Bytes)
    (hd : raw.drop start = u ++ c :: w) (hc : c ∉ u) :
    bfind raw c (start : Int) = ((start + u.length : Nat) : Int) := by
  have hlt : start ≤ raw.length := by
    by_contra hgt
    rw [List.drop_eq_nil_of_le (by omega)] at hd
    exact absurd hd.symm (by simp)
  rw [bfind, pyidx_le _ _ hlt, hd, bfindAux_append_not_mem c u _ _ hc,
    bfindAux_cons_self]

theorem bfind_not_mem (raw : Bytes) (c : Nat) (start : Nat)
    (hc : c ∉ raw.drop start) :
    bfind raw c (start : Int) = -1 := by
  rw [bfind]
  rcases le_or_lt start raw.length with h | h
  · rw [pyidx_le _ _ h]; exact bfindAux_not_mem _ _ _ hc
  · rw [pyidx_ofNat, min_eq_right (by omega), List.drop_length]
    rfl

theorem bfind_ge (raw : Bytes) (c : Nat) (start : Nat) (h : c ∈ raw.drop start) :
    (start : Int) ≤ bfind raw c (start : Int) := by
  have hlt : start ≤ raw.length := by
    by_contra hgt
    rw [List.drop_eq_nil_of_le (by omega)] at h
    exact absurd h (by simp)
  rw [bfind, pyidx_le _ _ hlt]
  exact bfindAux_ge _ _ _ h

end BytesLemmas

/-! ## Numeric codecs: hex (`format(n, '040x')`, `int(s, 16)`), decimal
(`str(n)`, `int(s)`), and big-endian byte packing (`int.from_bytes` /
`int.to_bytes`). -/

/-- Lowercase hex digit for `d < 16`, as Python `format(..., 'x')` emits. -/
def hexDigitChar (d : Nat) : Nat := if d < 10 then 48 + d else 87 + d

/-- Big-endian fixed-width lowercase hex rendering: `format(n, '0{w}x')` for
`n < 16 ^ w`. -/
def natToHex : Nat → Nat → Bytes
  | 0, _ => []
  | w + 1, n => hexDigitChar (n / 16 ^ w) :: natToHex w (n % 16 ^ w)

/-- Value of one hex digit byte, accepting both cases as Python `int(s, 16)`
does. -/
def hexVal (c : Nat) : Option Nat :=
  if 48 ≤ c ∧ c ≤ 57 then some (c - 48)
  else if 97 ≤ c ∧ c ≤ 102 then some (c - 87)
  else if 65 ≤ c ∧ c ≤ 70 then some (c - 55)
  else none

def hexToNatAux : Option Nat → Bytes → Option Nat
  | acc, [] => acc
  | acc, c :: rest =>
    hexToNatAux (acc.bind fun a => (hexVal c).map fun d => a * 16 + d) rest

/-- Python `int(s, 16)` on a byte string of hex digits (`none` on empty or
non-hex input, as `int` raises `ValueError`). -/
def hexToNat (s : Bytes) : Option Nat :=
  if s = [] then none else hexToNatAux (some 0) s

/-- A byte is a hex digit (the character class of `[0-9A-Fa-f]`). -/
def isHexDig (c : Nat) : Bool :=
  (48 ≤ c && c ≤ 57) || (97 ≤ c && c ≤ 102) || (65 ≤ c && c ≤ 70)

/-- Python `int.from_bytes(bs, 'big')`. -/
def bytesToNat (bs : Bytes) : Nat := bs.foldl (fun a b => a * 256 + b) 0

/-- Digits of Python `n.to_bytes(w, 'big')` (meaningful for `n < 256 ^ w`). -/
def natToBytesAux : Nat → Nat → Bytes
  | 0, _ => []
  | w + 1, n => (n / 256 ^ w) :: natToBytesAux w (n % 256 ^ w)

/-- Python `n.to_bytes(w, 'big')`; `none` models the `OverflowError` raised
when `n` does not fit. -/
def natToBytes (w n : Nat) : Option Bytes :=
  if n < 256 ^ w then some (natToBytesAux w n) else none

/-- Whitespace bytes stripped by Python `int()`. -/
def isPySpace (c : Nat) : Bool :=
  c = 32 || c = 9 || c = 10 || c = 13 || c = 11 || c = 12

def isPyDigit (c : Nat) : Bool := 48 ≤ c && c ≤ 57

/-- Python `int(s)` on bytes: strips surrounding whitespace, then requires a
non-empty run of decimal digits (signs are not modelled; every negative size
would anyway fail `object_read`'s length check, so both sides error). -/
def pyInt (s : Bytes) : Option Nat :=
  let t := ((s.dropWhile isPySpace).reverse.dropWhile isPySpace).reverse
  if t ≠ [] ∧ t.all isPyDigit then
    some (t.foldl (fun a c => a * 10 + (c - 48)) 0)
  else none

/-- Digits of Python `str(n)` for a natural number, with recursion fuel
(`n + 1` always suffices). -/
def natToDecAux : Nat → Nat → Bytes
  | 0, _ => []
  | fuel + 1, n =>
    if n < 10 then [48 + n] else natToDecAux fuel (n / 10) ++ [48 + n % 10]

/-- Python `str(n).encode()` for a natural number. -/
def natToDec (n : Nat) : Bytes := natToDecAux (n + 1) n

section NumericLemmas

theorem hexVal_hexDigitChar (d : Nat) (h : d < 16) :
    hexVal (hexDigitChar d) = some d := by
  unfold hexVal hexDigitChar
  split
  · rw [if_pos (by omega)]
    congr 1
    omega
  · rw [if_neg (by omega), if_pos (by omega)]
    congr 1
    omega

theorem isHexDig_hexDigitChar (d : Nat) (h : d < 16) :
    isHexDig (hexDigitChar d) = true := by
  unfold isHexDig hexDigitChar
  split <;> simp <;> omega

theorem natToHex_length (w n : Nat) : (natToHex w n).length = w := by
  induction w generalizing n with
  | zero => rfl
  | succ w ih => simp [natToHex, ih]

theorem natToHex_mem_isHexDig (w n : Nat) (hn : n < 16 ^ w) :
    ∀ b ∈ natToHex w n, isHexDig b = true := by
  induction w generalizing n with
  | zero => simp [natToHex]
  | succ w ih =>
    intro b hb
    rw [natToHex] at hb
    rcases List.mem_cons.mp hb with h1 | h2
    · subst h1
      exact isHexDig_hexDigitChar _ (Nat.div_lt_of_lt_mul (by rw [pow_succ] at hn; omega))
    · exact ih (n % 16 ^ w) (Nat.mod_lt _ (by positivity)) b h2

theorem hexToNatAux_natToHex (w n a : Nat) (hn : n < 16 ^ w) :
    hexToNatAux (some a) (natToHex w n) = some (a * 16 ^ w + n) := by
  induction w generalizing n a with
  | zero =>
    simp only [pow_zero] at hn ⊢
    simp [natToHex, hexToNatAux]
    omega
  | succ w ih =>
    have hdiv : n / 16 ^ w < 16 :=
      Nat.div_lt_of_lt_mul (by rw [pow_succ] at hn; omega)
    rw [natToHex, hexToNatAux, hexVal_hexDigitChar _ hdiv]
    simp only [Option.some_bind, Option.map_some']
    rw [ih _ _ (Nat.mod_lt _ (by positivity))]
    congr 1
    have hdm : 16 ^ w * (n / 16 ^ w) + n % 16 ^ w = n := Nat.div_add_mod n (16 ^ w)
    calc (a * 16 + n / 16 ^ w) * 16 ^ w + n % 16 ^ w
        = a * (16 ^ w * 16) + (16 ^ w * (n / 16 ^ w) + n % 16 ^ w) := by ring
      _ = a * 16 ^ (w + 1) + n := by rw [hdm, pow_succ]

theorem hexToNat_natToHex (w n : Nat) (hw : 0 < w) (hn : n < 16 ^ w) :
    hexToNat (natToHex w n) = some n := by
  rw [hexToNat, if_neg (by
    intro h
    have := natToHex_length w n
    rw [h] at this
    simp at this
    omega)]
  rw [hexToNatAux_natToHex w n 0 hn]
  simp

theorem bytesToNat_foldl (bs : Bytes) (a : Nat) :
    bs.foldl (fun a b => a * 256 + b) a = a * 256 ^ bs.length + bytesToNat bs := by
  induction bs generalizing a with
  | nil => simp [bytesToNat]
  | cons b rest ih =>
    rw [List.foldl_cons, ih]
    have hcons : bytesToNat (b :: rest)
        = (0 * 256 + b) * 256 ^ rest.length + bytesToNat rest := by
      rw [bytesToNat, List.foldl_cons, ih]
    rw [hcons, List.length_cons, pow_succ]
    ring

theorem bytesToNat_cons (b : Nat) (rest : Bytes) :
    bytesToNat (b :: rest) = b * 256 ^ rest.length + bytesToNat rest := by
  rw [bytesToNat, List.foldl_cons, bytesToNat_foldl]
  ring

theorem bytesToNat_lt (bs : Bytes) (h : ∀ b ∈ bs, b < 256) :
    bytesToNat bs < 256 ^ bs.length := by
  induction bs with
  | nil => simp [bytesToNat]
  | cons b rest ih =>
    rw [bytesToNat_cons, List.length_cons, pow_succ]
    have hb : b < 256 := h b (by simp)
    have hr : bytesToNat rest < 256 ^ rest.length := ih fun x hx => h x (by simp [hx])
    have h2 : (b + 1) * 256 ^ rest.length = b * 256 ^ rest.length + 256 ^ rest.length := by
      ring
    have h1 : (b + 1) * 256 ^ rest.length ≤ 256 ^ rest.length * 256 := by
      rw [mul_comm (256 ^ rest.length) 256]
      exact mul_le_mul_right' (by omega) _
    omega

theorem natToBytesAux_bytesToNat (bs : Bytes) (h : ∀ b ∈ bs, b < 256) :
    natToBytesAux bs.length (bytesToNat bs) = bs := by
  induction bs with
  | nil => rfl
  | cons b rest ih =>
    have hb : b < 256 := h b (by simp)
    have hr : bytesToNat rest < 256 ^ rest.length :=
      bytesToNat_lt rest fun x hx => h x (by simp [hx])
    have hval : bytesToNat (b :: rest) = b * 256 ^ rest.length + bytesToNat rest :=
      bytesToNat_cons b rest
    have hq : 0 < 256 ^ rest.length := by positivity
    have hdiv : (b * 256 ^ rest.length + bytesToNat rest) / 256 ^ rest.length = b := by
      rw [add_comm, Nat.add_mul_div_right _ _ hq, Nat.div_eq_of_lt hr]
      omega
    have hmod : (b * 256 ^ rest.length + bytesToNat rest) % 256 ^ rest.length
        = bytesToNat rest := by
      rw [add_comm, Nat.add_mul_mod_self_right, Nat.mod_eq_of_lt hr]
    rw [List.length_cons, natToBytesAux, hval, hdiv, hmod,
      ih fun x hx => h x (by simp [hx])]

end NumericLemmas

section DecimalLemmas

theorem natToDecAux_digit (fuel n : Nat) :
    ∀ c ∈ natToDecAux fuel n, 48 ≤ c ∧ c ≤ 57 := by
  induction fuel generalizing n with
  | zero => simp [natToDecAux]
  | succ fuel ih =>
    intro c hc
    rw [natToDecAux] at hc
    split at hc
    · simp at hc
      omega
    · rcases List.mem_append.mp hc with h1 | h2
      · exact ih _ c h1
      · simp at h2
        have := Nat.mod_lt n (show 0 < 10 by omega)
        omega

theorem natToDecAux_ne_nil (fuel n : Nat) (h : 0 < fuel) :
    natToDecAux fuel n ≠ [] := by
  cases fuel with
  | zero => omega
  | succ fuel =>
    rw [natToDecAux]
    split <;> simp

theorem natToDecAux_foldl (fuel n : Nat) (hn : n < fuel) : ∀ a,
    (natToDecAux fuel n).foldl (fun a c => a * 10 + (c - 48)) a
      = a * 10 ^ (natToDecAux fuel n).length + n := by
  induction fuel generalizing n with
  | zero => omega
  | succ fuel ih =>
    intro a
    rw [natToDecAux]
    split
    · simp only [List.foldl_cons, List.foldl_nil, List.length_cons,
        List.length_nil, zero_add, pow_one]
      omega
    · have hrec : n / 10 < fuel := by
        have := Nat.div_lt_self (show 0 < n by omega) (show 1 < 10 by omega)
        omega
      rw [List.foldl_append, ih _ hrec]
      simp only [List.foldl_cons, List.foldl_nil, List.length_append,
        List.length_cons, List.length_nil, Nat.add_sub_cancel_left]
      have hdm : 10 * (n / 10) + n % 10 = n := Nat.div_add_mod n 10
      calc (a * 10 ^ (natToDecAux fuel (n / 10)).length + n / 10) * 10 + n % 10
          = a * (10 ^ (natToDecAux fuel (n / 10)).length * 10)
            + (10 * (n / 10) + n % 10) := by ring
        _ = a * 10 ^ ((natToDecAux fuel (n / 10)).length + 1) + n := by
            rw [hdm, pow_succ]

theorem isPySpace_digit (c : Nat) (h : 48 ≤ c ∧ c ≤ 57) : isPySpace c = false := by
  unfold isPySpace
  simp
  omega

theorem dropWhile_no_space (l : Bytes) (h : ∀ c ∈ l, isPySpace c = false) :
    l.dropWhile isPySpace = l := by
  cases l with
  | nil => rfl
  | cons c rest =>
    rw [List.dropWhile_cons, if_neg (by rw [h c (by simp)]; simp)]

/-- Python `int(b' ' + str(n).encode())` recovers `n`: the decimal size field
written by `object_write` (with the space that `object_read`'s slice keeps)
parses back. -/
theorem pyInt_space_natToDec (n : Nat) : pyInt (32 :: natToDec n) = some n := by
  have hdig : ∀ c ∈ natToDec n, 48 ≤ c ∧ c ≤ 57 := natToDecAux_digit _ _
  have hnospace : ∀ c ∈ natToDec n, isPySpace c = false :=
    fun c hc => isPySpace_digit c (hdig c hc)
  have hne : natToDec n ≠ [] := natToDecAux_ne_nil _ _ (by omega)
  have ht : (((32 :: natToDec n).dropWhile isPySpace).reverse.dropWhile
      isPySpace).reverse = natToDec n := by
    rw [List.dropWhile_cons, if_pos (by rfl), dropWhile_no_space _ hnospace,
      dropWhile_no_space _ (by
        intro c hc
        exact hnospace c (List.mem_reverse.mp hc)),
      List.reverse_reverse]
  rw [pyInt]
  simp only [ht]
  rw [if_pos ⟨hne, by
    rw [List.all_eq_true]
    intro c hc
    have := hdig c hc
    unfold isPyDigit
    simp
    omega⟩]
  rw [show natToDec n = natToDecAux (n + 1) n from rfl,
    natToDecAux_foldl _ _ (by omega)]
  simp

end DecimalLemmas

/-! ## The KVLM ("key-value list with message") codec of commits and tags. -/

/-- Python `value.replace(b'\n ', b'\n')`: left-to-right scan deleting the
space of every newline-space pair (line de-continuation in `kvlm_parse`). -/
def decont : Bytes → Bytes
  | [] => []
  | [b] => [b]
  | b :: c :: rest =>
    if b = 10 ∧ c = 32 then 10 :: decont rest else b :: decont (c :: rest)

/-- Python `v.replace(b'\n', b'\n ')`: line continuation in
`kvlm_serialize`. -/
def recont : Bytes → Bytes
  | [] => []
  | b :: rest => if b = 10 then 10 :: 32 :: recont rest else b :: recont rest

/-- Every newline in the string is immediately followed by a space: the shape
`kvlm_parse`'s end-of-value scan skips over. -/
def contOk : Bytes → Bool
  | [] => true
  | [b] => decide (b ≠ 10)
  | b :: c :: rest =>
    if b = 10 then (if c = 32 then contOk rest else false)
    else contOk (c :: rest)

section ContLemmas

theorem decont_cons_ne (b : Nat) (l : Bytes) (hb : b ≠ 10) :
    decont (b :: l) = b :: decont l := by
  cases l with
  | nil => simp [decont]
  | cons c rest =>
    rw [decont, if_neg (by
      intro hh
      exact hb hh.1)]

theorem decont_nl_sp (l : Bytes) : decont (10 :: 32 :: l) = 10 :: decont l := by
  rw [decont, if_pos ⟨rfl, rfl⟩]

theorem decont_recont (v : Bytes) : decont (recont v) = v := by
  induction v with
  | nil => simp [recont, decont]
  | cons b rest ih =>
    rw [recont]
    split
    · rename_i hb
      rw [decont_nl_sp, ih, hb]
    · rename_i hb
      rw [decont_cons_ne _ _ hb, ih]

theorem contOk_cons_ne (b : Nat) (l : Bytes) (hb : b ≠ 10) :
    contOk (b :: l) = contOk l := by
  cases l with
  | nil => simp [contOk, hb]
  | cons c rest => rw [contOk, if_neg hb]

theorem contOk_nl_sp (l : Bytes) : contOk (10 :: 32 :: l) = contOk l := by
  rw [contOk, if_pos rfl, if_pos rfl]

theorem contOk_recont (v : Bytes) : contOk (recont v) = true := by
  induction v with
  | nil => rfl
  | cons b rest ih =>
    rw [recont]
    split
    · rw [contOk_nl_sp]
      exact ih
    · rename_i hb
      rw [contOk_cons_ne _ _ hb]
      exact ih

theorem contOk_append_left (u w : Bytes) (h : 10 ∉ u) :
    contOk (u ++ w) = contOk w := by
  induction u with
  | nil => rfl
  | cons b rest ih =>
    simp only [List.mem_cons, not_or] at h
    rw [List.cons_append, contOk_cons_ne _ _ (fun hh => h.1 hh.symm), ih h.2]

theorem contOk_split (w : Bytes) (hok : contOk w = true) (hmem : 10 ∈ w) :
    ∃ w₁ w₂, w = w₁ ++ 10 :: 32 :: w₂ ∧ 10 ∉ w₁ ∧ contOk w₂ = true := by
  induction w with
  | nil => cases hmem
  | cons b rest ih =>
    by_cases hb : b = 10
    · subst hb
      match rest, hok with
      | [], hok => simp [contOk] at hok
      | c :: rest2, hok =>
        rw [contOk, if_pos rfl] at hok
        by_cases hc : c = 32
        · subst hc
          rw [if_pos rfl] at hok
          exact ⟨[], rest2, by simp, by simp, hok⟩
        · rw [if_neg hc] at hok
          cases hok
    · rw [contOk_cons_ne _ _ hb] at hok
      have hmem2 : 10 ∈ rest := by
        rcases List.mem_cons.mp hmem with h1 | h2
        · omega
        · exact h2
      obtain ⟨w₁, w₂, heq, hnm, hok2⟩ := ih hok hmem2
      refine ⟨b :: w₁, w₂, by rw [heq]; rfl, ?_, hok2⟩
      simp only [List.mem_cons, not_or]
      exact ⟨fun hh => hb hh.symm, hnm⟩

theorem recont_length (v : Bytes) : v.length ≤ (recont v).length := by
  induction v with
  | nil => simp [recont]
  | cons b rest ih =>
    rw [recont]
    split
    · simp only [List.length_cons]
      omega
    · simp only [List.length_cons]
      omega

end ContLemmas

/-- A KVLM value: a single byte string, or the list a repeated key is
upgraded to (`dct[key] = [old, new]` then `.append`). -/
inductive KVal where
  | single (v : Bytes)
  | multi (vs : List Bytes)
deriving DecidableEq, Repr

/-- The ordered dictionary of `kvlm_parse`: association list in insertion
order (Python `OrderedDict` keys are unique; parsing only ever produces
duplicate-free key lists). -/
abbrev KVLM := List (Bytes × KVal)

def kvlmLookup : KVLM → Bytes → Option KVal
  | [], _ => none
  | (k', v) :: rest, k => if k' = k then some v else kvlmLookup rest k

/-- The repeated-key upgrade of `kvlm_parse`: append to an existing list, or
turn a single value into a two-element list. -/
def pushV : KVal → Bytes → KVal
  | .single a, v => .multi [a, v]
  | .multi vs, v => .multi (vs ++ [v])

/-- `kvlm_parse`'s insertion: upgrade in place if the key is present
(keeping its position, as Python dict assignment does), else append. -/
def insKV : KVLM → Bytes → Bytes → KVLM
  | [], k, v => [(k, .single v)]
  | (k', kv) :: rest, k, v =>
    if k' = k then (k', pushV kv v) :: rest else (k', kv) :: insKV rest k v

/-- Plain dictionary assignment `dct[k] = v` (used for the message key). -/
def setKV : KVLM → Bytes → KVal → KVLM
  | [], k, v => [(k, v)]
  | (k', kv) :: rest, k, v =>
    if k' = k then (k', v) :: rest else (k', kv) :: setKV rest k v

/-- The `while True: end = raw.find(b'\n', end+1); if raw[end+1] != ord(' '):
break` loop of `kvlm_parse`.  `none` models an `IndexError` (`raw[end+1]`
out of range) or non-termination; fuel `raw.length + 2` is enough for every
terminating run, since the loop state `end` never repeats in one. -/
def kvlm_scanEnd (raw : Bytes) : Nat → Int → Option Int
  | 0, _ => none
  | fuel + 1, e =>
    if h : (bfind raw 10 (e + 1) + 1).toNat < raw.length then
      if raw.get ⟨(bfind raw 10 (e + 1) + 1).toNat, h⟩ = 32 then
        kvlm_scanEnd raw fuel (bfind raw 10 (e + 1))
      else some (bfind raw 10 (e + 1))
    else none

/-- The body of `kvlm_parse(raw, start, dct)`.  `none` models an
`AssertionError` (`assert nl == start`), an inner `IndexError`, or
non-termination of the Python recursion; fuel `raw.length + 2` covers every
terminating run because the deterministic `start` sequence never repeats in
one. -/
def kvlm_parse_go (raw : Bytes) : Nat → Nat → KVLM → Option KVLM
  | 0, _, _ => none
  | fuel + 1, start, dct =>
    if bfind raw 32 (start : Int) < 0
        ∨ bfind raw 10 (start : Int) < bfind raw 32 (start : Int) then
      if bfind raw 10 (start : Int) = (start : Int) then
        some (setKV dct []
          (.single (pyslice raw ((start : Int) + 1) (raw.length : Int))))
      else none
    else
      match kvlm_scanEnd raw (raw.length + 2) (start : Int) with
      | none => none
      | some e =>
        kvlm_parse_go raw fuel (e + 1).toNat
          (insKV dct (pyslice raw (start : Int) (bfind raw 32 (start : Int)))
            (decont (pyslice raw (bfind raw 32 (start : Int) + 1) e)))

/-- `kvlm_parse(raw)`: start at 0 with a fresh ordered dict. -/
def kvlm_parse (raw : Bytes) : Option KVLM :=
  kvlm_parse_go raw (raw.length + 2) 0 []

/-- The values serialized for one key: a singleton for a plain value, the
list itself for an upgraded one (`if type(val) != list: val = [val]`). -/
def serVals : KVal → List Bytes
  | .single v => [v]
  | .multi vs => vs

/-- `kvlm_serialize(kvlm)`: emit `key SP recontinued-value LF` per value in
key order, skipping the message key, then a blank line and the message.
`none` models the `KeyError`/`TypeError` when the message key is absent or
holds a list. -/
def kvlm_serialize (kvlm : KVLM) : Option Bytes :=
  match kvlmLookup kvlm [] with
  | some (.single msg) =>
    some ((kvlm.foldl (fun acc kv =>
      if kv.1 = [] then acc
      else (serVals kv.2).foldl
        (fun a v => a ++ (kv.1 ++ 32 :: (recont v ++ [10]))) acc) [])
      ++ 10 :: msg)
  | _ => none

/-- One serialized header line `key SP recont value LF`. -/
def lineB (k v : Bytes) : Bytes := k ++ 32 :: (recont v ++ [10])

/-- The wire form of a list of header lines. -/
def renderLines (ls : List (Bytes × Bytes)) : Bytes :=
  (ls.map fun p => lineB p.1 p.2).flatten

/-- A KVLM wire block: header lines, the blank separator line, the message. -/
def renderKVLM (ls : List (Bytes × Bytes)) (msg : Bytes) : Bytes :=
  renderLines ls ++ 10 :: msg

/-- A usable header key: non-empty, no space, no newline (§3 of the spec:
keys are non-empty; the wire format delimits keys by SP and lines by LF). -/
def wfKey (k : Bytes) : Prop := k ≠ [] ∧ 32 ∉ k ∧ 10 ∉ k

instance (k : Bytes) : Decidable (wfKey k) := by
  unfold wfKey
  infer_instance

section ScanLemmas

theorem bfindAux_neg_or_ge (c : Nat) (w : Bytes) (i : Nat) :
    bfindAux c w i = -1 ∨ (i : Int) ≤ bfindAux c w i := by
  induction w generalizing i with
  | nil => exact Or.inl rfl
  | cons b rest ih =>
    rw [bfindAux]
    split
    · right; exact le_rfl
    · rcases ih (i + 1) with h | h
      · exact Or.inl h
      · right
        have : ((i : Int) + 1) ≤ bfindAux c rest (i + 1) := by
          simpa using h
        omega

/-- If the suffix at `start` begins with a `c`-free stretch `u` and `c`
occurs afterwards, the find lands at or beyond `start + u.length`. -/
theorem bfind_ge_of_append (raw : Bytes) (c : Nat) (start : Nat) (u w : Bytes)
    (hd : raw.drop start = u ++ w) (hcu : c ∉ u) (hcw : c ∈ w) :
    ((start + u.length : Nat) : Int) ≤ bfind raw c (start : Int) := by
  have hlt : start ≤ raw.length := by
    by_contra hgt
    rw [List.drop_eq_nil_of_le (by omega)] at hd
    have : w = [] := by
      cases u <;> simp_all
    subst this
    cases hcw
  rw [bfind, pyidx_le _ _ hlt, hd, bfindAux_append_not_mem c u _ _ hcu]
  exact bfindAux_ge c w _ hcw

/-- Head of a list suffix. -/
theorem get_of_drop (raw : Bytes) (m : Nat) (b : Nat) (rest : Bytes)
    (hd : raw.drop m = b :: rest) (h : m < raw.length) :
    raw.get ⟨m, h⟩ = b := by
  have h1 : raw[m]? = some b := by
    have h2 : (raw.drop m)[0]? = some b := by rw [hd]; simp
    rw [List.getElem?_drop] at h2
    simpa using h2
  have h3 : raw[m]? = some (raw.get ⟨m, h⟩) := by
    rw [List.getElem?_eq_getElem h, List.get_eq_getElem]
  rw [h3] at h1
  exact Option.some_inj.mp h1

/-- A non-empty suffix means the index is in range. -/
theorem lt_length_of_drop (raw : Bytes) (m : Nat) (b : Nat) (rest : Bytes)
    (hd : raw.drop m = b :: rest) : m < raw.length := by
  by_contra hge
  rw [List.drop_eq_nil_of_le (by omega)] at hd
  exact absurd hd (by simp)

/-- Specification of the end-of-value scan: starting just before
`w ++ 10 :: b :: rest` where every newline of `w` continues with a space and
`b` is not a space, the scan returns the index of the terminating newline. -/
theorem kvlm_scanEnd_spec (raw : Bytes) : ∀ (fuel : Nat) (w : Bytes)
    (e : Int) (b : Nat) (rest : Bytes),
    contOk w = true → b ≠ 32 → 0 ≤ e + 1 →
    raw.drop (e + 1).toNat = w ++ 10 :: b :: rest →
    w.length + 1 ≤ fuel →
    kvlm_scanEnd raw fuel e = some (e + 1 + w.length) := by
  intro fuel
  induction fuel with
  | zero =>
    intro w e b rest _ _ _ _ hfuel
    omega
  | succ fuel ih =>
    intro w e b rest hok hb he hd hfuel
    have hcast : ((e + 1).toNat : Int) = e + 1 := Int.toNat_of_nonneg he
    by_cases hmem : 10 ∈ w
    · -- a continued newline inside the value: the scan steps over it
      obtain ⟨w₁, w₂, heq, hnm, hok2⟩ := contOk_split w hok hmem
      subst heq
      have hd' : raw.drop (e + 1).toNat
          = w₁ ++ 10 :: (32 :: (w₂ ++ 10 :: b :: rest)) := by
        rw [hd]
        simp
      have hfind : bfind raw 10 (e + 1)
          = (((e + 1).toNat + w₁.length : Nat) : Int) := by
        rw [← hcast]
        exact bfind_eq raw 10 (e + 1).toNat w₁ _ hd' hnm
      have hd2 : raw.drop ((e + 1).toNat + w₁.length + 1)
          = 32 :: (w₂ ++ 10 :: b :: rest) := by
        have hdd : raw.drop ((e + 1).toNat + w₁.length + 1)
            = (raw.drop (e + 1).toNat).drop (w₁.length + 1) := by
          rw [List.drop_drop, Nat.add_assoc]
        rw [hdd, hd', List.drop_append 1]
        simp
      have hlt : (e + 1).toNat + w₁.length + 1 < raw.length :=
        lt_length_of_drop raw _ _ _ hd2
      have htn : (bfind raw 10 (e + 1) + 1).toNat
          = (e + 1).toNat + w₁.length + 1 := by
        rw [hfind]
        omega
      rw [kvlm_scanEnd]
      rw [dif_pos (by rw [htn]; exact hlt)]
      have hget : raw.get ⟨(bfind raw 10 (e + 1) + 1).toNat, by rw [htn]; exact hlt⟩
          = 32 := by
        have := get_of_drop raw _ _ _ hd2 hlt
        simp only [htn]
        exact this
      rw [if_pos hget]
      have hres := ih (32 :: w₂) (bfind raw 10 (e + 1)) b rest
        (by rw [contOk_cons_ne _ _ (by omega)]; exact hok2) hb
        (by rw [hfind]; omega)
        (by
          have : (bfind raw 10 (e + 1) + 1).toNat
              = (e + 1).toNat + w₁.length + 1 := htn
          rw [this, hd2]
          simp)
        (by
          have hlw : (w₁ ++ 10 :: 32 :: w₂).length = w₁.length + w₂.length + 2 := by
            simp
            omega
          simp only [List.length_cons]
          omega)
      rw [hres, hfind]
      congr 1
      have hlw : ((w₁ ++ 10 :: 32 :: w₂).length : Int)
          = w₁.length + w₂.length + 2 := by
        push_cast [List.length_append, List.length_cons]
        ring
      simp only [List.length_cons]
      push_cast
      omega
    · -- no newline in the value part: the find hits the terminator at once
      have hfind : bfind raw 10 (e + 1)
          = (((e + 1).toNat + w.length : Nat) : Int) := by
        rw [← hcast]
        exact bfind_eq raw 10 (e + 1).toNat w _ hd hmem
      have hd2 : raw.drop ((e + 1).toNat + w.length + 1) = b :: rest := by
        have hdd : raw.drop ((e + 1).toNat + w.length + 1)
            = (raw.drop (e + 1).toNat).drop (w.length + 1) := by
          rw [List.drop_drop, Nat.add_assoc]
        rw [hdd, hd, List.drop_append 1]
        simp
      have hlt : (e + 1).toNat + w.length + 1 < raw.length :=
        lt_length_of_drop raw _ _ _ hd2
      have htn : (bfind raw 10 (e + 1) + 1).toNat
          = (e + 1).toNat + w.length + 1 := by
        rw [hfind]
        omega
      rw [kvlm_scanEnd]
      rw [dif_pos (by rw [htn]; exact hlt)]
      have hget : raw.get ⟨(bfind raw 10 (e + 1) + 1).toNat, by rw [htn]; exact hlt⟩
          = b := by
        have := get_of_drop raw _ _ _ hd2 hlt
        simp only [htn]
        exact this
      rw [if_neg (by rw [hget]; exact hb), hfind]
      congr 1
      push_cast
      omega

end ScanLemmas

section ParseLemmas

theorem renderLines_nil : renderLines [] = [] := rfl

theorem renderLines_cons (p : Bytes × Bytes) (ls : List (Bytes × Bytes)) :
    renderLines (p :: ls) = lineB p.1 p.2 ++ renderLines ls := by
  simp [renderLines]

/-- What follows a header line starts with a non-space byte (the next key's
first byte, or the blank line). -/
theorem renderTail_head (ls : List (Bytes × Bytes)) (msg : Bytes)
    (h : ∀ p ∈ ls, wfKey p.1) :
    ∃ b rest, renderLines ls ++ 10 :: msg = b :: rest ∧ b ≠ 32 := by
  cases ls with
  | nil =>
    exact ⟨10, msg, rfl, by omega⟩
  | cons p ls' =>
    obtain ⟨hne, hs, -⟩ := h p (by simp)
    match p, hne with
    | (c :: t, v), _ =>
      refine ⟨c, (t ++ 32 :: (recont v ++ [10])) ++ (renderLines ls' ++ 10 :: msg),
        ?_, ?_⟩
      · rw [renderLines_cons]
        simp [lineB]
      · intro hc
        exact hs (by simp [hc])

/-- Specification of `kvlm_parse_go` on a rendered block: it consumes the
lines one by one, upgrade-inserting each into the dictionary, and finally
assigns the message to the empty key. -/
theorem kvlm_parse_go_spec (raw : Bytes) : ∀ (ls : List (Bytes × Bytes))
    (msg : Bytes) (start : Nat) (dct : KVLM) (fuel : Nat),
    (∀ p ∈ ls, wfKey p.1) →
    raw.drop start = renderLines ls ++ 10 :: msg →
    ls.length + 1 ≤ fuel →
    kvlm_parse_go raw fuel start dct
      = some (setKV (ls.foldl (fun d p => insKV d p.1 p.2) dct) []
          (.single msg)) := by
  intro ls
  induction ls with
  | nil =>
    intro msg start dct fuel _ hd hfuel
    match fuel, hfuel with
    | f + 1, _ =>
      rw [renderLines_nil, List.nil_append] at hd
      have hnl : bfind raw 10 (start : Int) = (start : Int) := by
        have := bfind_eq raw 10 start [] msg (by simpa using hd) (by simp)
        simpa using this
      have hstartlt : start < raw.length := lt_length_of_drop raw _ _ _ hd
      have hguard : bfind raw 32 (start : Int) < 0
          ∨ bfind raw 10 (start : Int) < bfind raw 32 (start : Int) := by
        by_cases hmem : 32 ∈ raw.drop start
        · right
          have hge := bfind_ge_of_append raw 32 start [10] msg hd
            (by simp) (by
              rcases List.mem_cons.mp (hd ▸ hmem) with h1 | h2
              · omega
              · exact h2)
          rw [hnl]
          have : ((start + (1 : Nat) : Nat) : Int) ≤ bfind raw 32 (start : Int) := by
            simpa using hge
          omega
        · left
          rw [bfind_not_mem raw 32 start hmem]
          omega
      have hslice : pyslice raw ((start : Int) + 1) (raw.length : Int)
          = msg := by
        have hc : ((start : Int) + 1) = ((start + 1 : Nat) : Int) := by push_cast; ring
        rw [hc, pyslice_drop raw (start + 1) (by omega), ← List.drop_drop, hd]
        simp
      rw [kvlm_parse_go, if_pos hguard, if_pos hnl, hslice]
      simp
  | cons p ls' ih =>
    intro msg start dct fuel hwf hd hfuel
    match fuel, hfuel with
    | fuel + 1, hfuel =>
      obtain ⟨hne, hnsp, hnnl⟩ := hwf p (by simp)
      match p, hne with
      | (k, v), hne =>
      simp only at hnsp hnnl
      -- the line layout after `start`
      have hd1 : raw.drop start
          = k ++ 32 :: (recont v ++ 10 :: (renderLines ls' ++ 10 :: msg)) := by
        rw [hd, renderLines_cons]
        simp [lineB]
      have hlendrop : (raw.drop start).length = raw.length - start :=
        List.length_drop start raw
      have hstartlt : start < raw.length := by
        have hne0 : (raw.drop start).length ≠ 0 := by
          rw [hd1]
          simp
        omega
      have hlen1 : raw.length - start
          = k.length + 1 + (recont v).length + 1
            + (renderLines ls' ++ 10 :: msg).length := by
        rw [← hlendrop, hd1]
        simp
        omega
      have hklen : start + k.length + 1 + (recont v).length + 1 ≤ raw.length := by
        omega
      -- the space after the key
      have hspc : bfind raw 32 (start : Int) = ((start + k.length : Nat) : Int) :=
        bfind_eq raw 32 start k _ hd1 hnsp
      -- the first newline comes strictly after the space
      have hnlge : ((start + (k.length + 1) : Nat) : Int)
          ≤ bfind raw 10 (start : Int) := by
        have hd2 : raw.drop start
            = (k ++ [32]) ++ (recont v ++ 10 :: (renderLines ls' ++ 10 :: msg)) := by
          rw [hd1]
          simp
        have := bfind_ge_of_append raw 10 start (k ++ [32]) _ hd2
          (by
            simp only [List.mem_append, List.mem_singleton, not_or]
            exact ⟨hnnl, by omega⟩)
          (by simp)
        simpa using this
      have hguard : ¬(bfind raw 32 (start : Int) < 0
          ∨ bfind raw 10 (start : Int) < bfind raw 32 (start : Int)) := by
        rw [hspc]
        push_neg
        constructor
        · omega
        · have := hnlge
          push_cast at this ⊢
          omega
      -- the end-of-value scan lands on the terminating newline
      obtain ⟨hb, hrest, hzissue, hbne⟩ := renderTail_head ls' msg
        (fun q hq => hwf q (by simp [hq]))
      match k, hne with
      | kh :: kt, _ =>
      have hdscan : raw.drop (((start : Int) + 1)).toNat
          = (kt ++ 32 :: recont v) ++ 10 :: hb :: hrest := by
        have h1 : (((start : Int) + 1)).toNat = start + 1 := by omega
        rw [h1, ← List.drop_drop, hd1, hzissue]
        simp
      have hscan : kvlm_scanEnd raw (raw.length + 2) (start : Int)
          = some ((start : Int) + 1 + (kt ++ 32 :: recont v).length) := by
        exact kvlm_scanEnd_spec raw (raw.length + 2) (kt ++ 32 :: recont v)
          (start : Int) hb hrest
          (by
            rw [contOk_append_left kt _ (by
              intro hc
              exact hnnl (by simp [hc])), contOk_cons_ne _ _ (by omega)]
            exact contOk_recont v)
          hbne (by omega) hdscan
          (by
            have hkl : (kh :: kt).length = kt.length + 1 := by simp
            simp only [List.length_append, List.length_cons]
            omega)
      -- name the numeric position of the terminator
      have hwlen : (kt ++ 32 :: recont v).length = kt.length + 1 + (recont v).length := by
        rw [List.length_append, List.length_cons]
        omega
      have heq1 : (start : Int) + 1 + ((kt ++ 32 :: recont v).length : Int)
          = (((start + (kh :: kt).length + 1 + (recont v).length : Nat)) : Int) := by
        rw [hwlen]
        push_cast [List.length_cons]
        omega
      -- the parsed key is exactly `k`
      have hkey : pyslice raw (start : Int) (bfind raw 32 (start : Int))
          = kh :: kt := by
        rw [hspc, pyslice_nat raw start (start + (kh :: kt).length) (by omega),
          List.drop_take]
        have h1 : start + (kh :: kt).length - start = kt.length + 1 := by
          simp
        rw [h1, hd1, List.cons_append, List.take_succ_cons, List.take_left]
      -- the parsed value is exactly `v` (after de-continuation)
      have hdrop2 : raw.drop (start + (kh :: kt).length + 1)
          = recont v ++ 10 :: (renderLines ls' ++ 10 :: msg) := by
        have h2 : start + (kh :: kt).length + 1 = start + (kt.length + 2) := by
          simp
          omega
        rw [h2, ← List.drop_drop, hd1]
        have h3 : (kh :: kt) ++ 32 :: (recont v ++ 10 :: (renderLines ls' ++ 10 :: msg))
            = ((kh :: kt) ++ [32]) ++ (recont v ++ 10 :: (renderLines ls' ++ 10 :: msg)) := by
          simp
        have h4 : kt.length + 2 = ((kh :: kt) ++ [32]).length := by
          simp
        rw [h3, h4, List.drop_left]
      have hval : decont (pyslice raw (bfind raw 32 (start : Int) + 1)
          ((start : Int) + 1 + ((kt ++ 32 :: recont v).length : Int))) = v := by
        rw [hspc, heq1]
        have hc1 : ((start + (kh :: kt).length : Nat) : Int) + 1
            = ((start + (kh :: kt).length + 1 : Nat) : Int) := by
          push_cast
          ring
        rw [hc1, pyslice_nat raw _ _ (by omega), List.drop_take]
        have h5 : start + (kh :: kt).length + 1 + (recont v).length
            - (start + (kh :: kt).length + 1) = (recont v).length := by
          omega
        rw [h5, hdrop2, List.take_left, decont_recont]
      -- the suffix after this line is the rendered tail
      have hdrop3 : raw.drop (start + (kh :: kt).length + 1 + (recont v).length + 1)
          = renderLines ls' ++ 10 :: msg := by
        have h6 : start + (kh :: kt).length + 1 + (recont v).length + 1
            = (start + (kh :: kt).length + 1) + ((recont v).length + 1) := by
          omega
        rw [h6, ← List.drop_drop, hdrop2]
        have h7 : (recont v).length + 1 = (recont v ++ [10]).length := by
          simp
        have h8 : recont v ++ 10 :: (renderLines ls' ++ 10 :: msg)
            = (recont v ++ [10]) ++ (renderLines ls' ++ 10 :: msg) := by
          simp
        rw [h8, h7, List.drop_left]
      have htn2 : ((start : Int) + 1 + ((kt ++ 32 :: recont v).length : Int) + 1).toNat
          = start + (kh :: kt).length + 1 + (recont v).length + 1 := by
        rw [hwlen]
        push_cast [List.length_cons]
        omega
      rw [kvlm_parse_go, if_neg hguard]
      simp only [hscan]
      rw [hkey, hval, htn2]
      rw [ih msg _ (insKV dct (kh :: kt) v) fuel
        (fun q hq => hwf q (by simp [hq])) hdrop3
        (by
          have : ((kh :: kt, v) :: ls').length = ls'.length + 1 := by simp
          omega)]
      rw [List.foldl_cons]

end ParseLemmas

/-! ## Runs: maximal blocks of consecutive lines sharing one key.  A block
whose repeated keys are adjacent is exactly a list of runs with pairwise
distinct keys. -/

/-- A run of header lines: the key, its first value, the remaining values. -/
abbrev Run := Bytes × Bytes × List Bytes

/-- The header lines of one run. -/
def runLines (r : Run) : List (Bytes × Bytes) :=
  (r.2.1 :: r.2.2).map fun v => (r.1, v)

/-- The header lines of a list of runs, in order. -/
def flattenRuns (rs : List Run) : List (Bytes × Bytes) :=
  (rs.map runLines).flatten

/-- The dictionary value a run parses to. -/
def valOfRun (v : Bytes) (vs : List Bytes) : KVal :=
  match vs with
  | [] => .single v
  | w :: ws => .multi (v :: w :: ws)

/-- The dictionary a grouped block parses to. -/
def dictOfRuns (rs : List Run) : KVLM :=
  rs.map fun r => (r.1, valOfRun r.2.1 r.2.2)

section DictLemmas

theorem insKV_not_mem (d : KVLM) (k : Bytes) (v : Bytes)
    (h : k ∉ d.map Prod.fst) : insKV d k v = d ++ [(k, .single v)] := by
  induction d with
  | nil => rfl
  | cons e rest ih =>
    simp only [List.map_cons, List.mem_cons, not_or] at h
    rw [show e = (e.1, e.2) from rfl, insKV, if_neg (fun hh => h.1 hh.symm),
      ih h.2]
    rfl

theorem insKV_last (d : KVLM) (k : Bytes) (kv : KVal) (v : Bytes)
    (h : k ∉ d.map Prod.fst) :
    insKV (d ++ [(k, kv)]) k v = d ++ [(k, pushV kv v)] := by
  induction d with
  | nil => simp [insKV]
  | cons e rest ih =>
    simp only [List.map_cons, List.mem_cons, not_or] at h
    rw [List.cons_append, show e = (e.1, e.2) from rfl, insKV,
      if_neg (fun hh => h.1 hh.symm), ih h.2]
    rfl

theorem foldl_pushV_multi (ws : List Bytes) : ∀ us : List Bytes,
    ws.foldl pushV (.multi us) = .multi (us ++ ws) := by
  induction ws with
  | nil => simp
  | cons w ws ih =>
    intro us
    rw [List.foldl_cons, show pushV (.multi us) w = .multi (us ++ [w]) from rfl,
      ih]
    simp

theorem valOfRun_foldl (v : Bytes) (vs : List Bytes) :
    valOfRun v vs = vs.foldl pushV (.single v) := by
  cases vs with
  | nil => rfl
  | cons w ws =>
    rw [List.foldl_cons, show pushV (.single v) w = .multi [v, w] from rfl,
      foldl_pushV_multi]
    rfl

theorem foldl_insKV_run (vs : List Bytes) (k : Bytes) :
    ∀ (d : KVLM) (kv : KVal), k ∉ d.map Prod.fst →
    (vs.map fun v => (k, v)).foldl (fun d' p => insKV d' p.1 p.2)
        (d ++ [(k, kv)])
      = d ++ [(k, vs.foldl pushV kv)] := by
  induction vs with
  | nil => intro d kv _; rfl
  | cons v vs ih =>
    intro d kv h
    rw [List.map_cons, List.foldl_cons]
    simp only
    rw [insKV_last d k kv v h, ih d _ h, List.foldl_cons]

theorem foldl_insKV_runs (rs : List Run) : ∀ d : KVLM,
    (rs.map Prod.fst).Nodup →
    (∀ r ∈ rs, r.1 ∉ d.map Prod.fst) →
    (flattenRuns rs).foldl (fun d' p => insKV d' p.1 p.2) d
      = d ++ dictOfRuns rs := by
  induction rs with
  | nil => intro d _ _; simp [flattenRuns, dictOfRuns]
  | cons r rs ih =>
    intro d hnd hmem
    have hflat : flattenRuns (r :: rs) = runLines r ++ flattenRuns rs := by
      simp [flattenRuns]
    rw [hflat, List.foldl_append]
    have hk : r.1 ∉ d.map Prod.fst := hmem r (by simp)
    have hfirst : (runLines r).foldl (fun d' p => insKV d' p.1 p.2) d
        = d ++ [(r.1, valOfRun r.2.1 r.2.2)] := by
      rw [runLines, List.map_cons, List.foldl_cons]
      simp only
      rw [insKV_not_mem d r.1 r.2.1 hk, foldl_insKV_run _ _ _ _ hk,
        valOfRun_foldl]
    rw [hfirst]
    have hnd2 : (rs.map Prod.fst).Nodup := (List.nodup_cons.mp (by simpa using hnd)).2
    have hk2 : r.1 ∉ rs.map Prod.fst := (List.nodup_cons.mp (by simpa using hnd)).1
    rw [ih (d ++ [(r.1, valOfRun r.2.1 r.2.2)]) hnd2 (by
      intro q hq hc
      rw [List.map_append] at hc
      rcases List.mem_append.mp hc with hc1 | hc1
      · exact hmem q (by simp [hq]) hc1
      · have hq1 : q.1 = r.1 := by simpa using hc1
        exact hk2 (hq1 ▸ List.mem_map_of_mem Prod.fst hq))]
    simp [dictOfRuns]

end DictLemmas

section SerializeLemmas

/-- The loop body of `kvlm_serialize`'s header emission. -/
def serStep (acc : Bytes) (kv : Bytes × KVal) : Bytes :=
  if kv.1 = [] then acc
  else (serVals kv.2).foldl
    (fun a v => a ++ (kv.1 ++ 32 :: (recont v ++ [10]))) acc

/-- The header part `kvlm_serialize` accumulates before the blank line. -/
def hdrOut (d : KVLM) : Bytes := d.foldl serStep []

theorem kvlm_serialize_eq (d : KVLM) :
    kvlm_serialize d = match kvlmLookup d [] with
      | some (.single msg) => some (hdrOut d ++ 10 :: msg)
      | _ => none := rfl

theorem serline_foldl (vs : List Bytes) (k : Bytes) : ∀ a : Bytes,
    vs.foldl (fun a v => a ++ (k ++ 32 :: (recont v ++ [10]))) a
      = a ++ ((vs.map fun v => lineB k v).flatten) := by
  induction vs with
  | nil => intro a; simp
  | cons v vs ih =>
    intro a
    rw [List.foldl_cons, ih]
    simp [lineB]

theorem serStep_acc (acc : Bytes) (e : Bytes × KVal) :
    serStep acc e = acc ++ serStep [] e := by
  unfold serStep
  by_cases he : e.1 = []
  · rw [if_pos he, if_pos he, List.append_nil]
  · rw [if_neg he, if_neg he, serline_foldl, serline_foldl, List.nil_append]

theorem serfold_acc (d : KVLM) : ∀ acc : Bytes,
    d.foldl serStep acc = acc ++ d.foldl serStep [] := by
  induction d with
  | nil => intro acc; simp
  | cons e rest ih =>
    intro acc
    rw [List.foldl_cons, List.foldl_cons, ih (serStep acc e), ih (serStep [] e),
      serStep_acc acc e, List.append_assoc]

theorem hdrOut_cons (e : Bytes × KVal) (d : KVLM) :
    hdrOut (e :: d) = serStep [] e ++ hdrOut d := by
  rw [hdrOut, List.foldl_cons, serfold_acc, hdrOut]

theorem serStep_emit (e : Bytes × KVal) (he : e.1 ≠ []) :
    serStep [] e = ((serVals e.2).map fun v => lineB e.1 v).flatten := by
  rw [serStep, if_neg he, serline_foldl, List.nil_append]

theorem renderLines_append (a b : List (Bytes × Bytes)) :
    renderLines (a ++ b) = renderLines a ++ renderLines b := by
  simp [renderLines]

theorem serVals_valOfRun (v : Bytes) (vs : List Bytes) :
    serVals (valOfRun v vs) = v :: vs := by
  cases vs <;> rfl

theorem renderLines_runLines (r : Run) :
    renderLines (runLines r)
      = ((serVals (valOfRun r.2.1 r.2.2)).map fun v => lineB r.1 v).flatten := by
  rw [serVals_valOfRun, runLines, renderLines, List.map_map]
  rfl

/-- The serialized header of a grouped dictionary is exactly the rendered
lines of its runs. -/
theorem hdrOut_dictOfRuns (rs : List Run) (hwf : ∀ r ∈ rs, r.1 ≠ []) :
    hdrOut (dictOfRuns rs) = renderLines (flattenRuns rs) := by
  induction rs with
  | nil => rfl
  | cons r rest ih =>
    have hflat : flattenRuns (r :: rest) = runLines r ++ flattenRuns rest := by
      simp [flattenRuns]
    rw [dictOfRuns, List.map_cons, hdrOut_cons, hflat, renderLines_append]
    rw [serStep_emit _ (by simpa using hwf r (by simp))]
    rw [show (List.map (fun r => (r.1, valOfRun r.2.1 r.2.2)) rest) = dictOfRuns rest
      from rfl]
    rw [ih fun q hq => hwf q (by simp [hq]), renderLines_runLines]

theorem setKV_not_mem (d : KVLM) (k : Bytes) (v : KVal)
    (h : k ∉ d.map Prod.fst) : setKV d k v = d ++ [(k, v)] := by
  induction d with
  | nil => rfl
  | cons e rest ih =>
    simp only [List.map_cons, List.mem_cons, not_or] at h
    rw [show e = (e.1, e.2) from rfl, setKV, if_neg (fun hh => h.1 hh.symm),
      ih h.2]
    rfl

theorem kvlmLookup_last (d : KVLM) (k : Bytes) (v : KVal)
    (h : k ∉ d.map Prod.fst) : kvlmLookup (d ++ [(k, v)]) k = some v := by
  induction d with
  | nil => simp [kvlmLookup]
  | cons e rest ih =>
    simp only [List.map_cons, List.mem_cons, not_or] at h
    rw [List.cons_append, show e = (e.1, e.2) from rfl, kvlmLookup,
      if_neg (fun hh => h.1 hh.symm), ih h.2]

theorem hdrOut_append (a b : KVLM) : hdrOut (a ++ b) = hdrOut a ++ hdrOut b := by
  induction a with
  | nil => simp [hdrOut]
  | cons e rest ih =>
    rw [List.cons_append, hdrOut_cons, hdrOut_cons, ih, List.append_assoc]

/-- Serializing the dictionary a grouped block parses to reproduces the
block byte-for-byte. -/
theorem kvlm_serialize_dictOfRuns (rs : List Run) (msg : Bytes)
    (hwf : ∀ r ∈ rs, r.1 ≠ []) :
    kvlm_serialize (setKV (dictOfRuns rs) [] (.single msg))
      = some (renderKVLM (flattenRuns rs) msg) := by
  have hnm : [] ∉ (dictOfRuns rs).map Prod.fst := by
    intro hc
    rw [dictOfRuns, List.map_map] at hc
    obtain ⟨r, hr, hr2⟩ := List.mem_map.mp hc
    exact hwf r hr hr2
  rw [setKV_not_mem _ _ _ hnm, kvlm_serialize_eq, kvlmLookup_last _ _ _ hnm]
  rw [hdrOut_append, hdrOut_dictOfRuns rs hwf]
  have hone : hdrOut [([], KVal.single msg)] = [] := rfl
  rw [hone, List.append_nil, renderKVLM]

end SerializeLemmas

section RoundTrip

theorem renderLines_length_ge (ls : List (Bytes × Bytes)) :
    ls.length ≤ (renderLines ls).length := by
  induction ls with
  | nil => simp [renderLines_nil]
  | cons p ls ih =>
    rw [renderLines_cons, List.length_append]
    have h1 : 1 ≤ (lineB p.1 p.2).length := by
      rw [lineB]
      simp only [List.length_append, List.length_cons]
      omega
    simp only [List.length_cons]
    omega

/-- Parsing a rendered block: fuel `raw.length + 2` always suffices. -/
theorem kvlm_parse_render (ls : List (Bytes × Bytes)) (msg : Bytes)
    (hwf : ∀ p ∈ ls, wfKey p.1) :
    kvlm_parse (renderKVLM ls msg)
      = some (setKV (ls.foldl (fun d p => insKV d p.1 p.2) []) []
          (.single msg)) := by
  rw [kvlm_parse]
  apply kvlm_parse_go_spec (renderKVLM ls msg) ls msg 0 [] _ hwf
  · simp [renderKVLM]
  · have h1 := renderLines_length_ge ls
    have h2 : (renderKVLM ls msg).length
        = (renderLines ls).length + 1 + msg.length := by
      rw [renderKVLM]
      simp
      omega
    omega

theorem flattenRuns_keys (rs : List Run) (p : Bytes × Bytes)
    (hp : p ∈ flattenRuns rs) : ∃ r ∈ rs, p.1 = r.1 := by
  rw [flattenRuns] at hp
  obtain ⟨l, hl, hpl⟩ := List.mem_flatten.mp hp
  obtain ⟨r, hr, hrl⟩ := List.mem_map.mp hl
  subst hrl
  rw [runLines] at hpl
  obtain ⟨v, -, hv⟩ := List.mem_map.mp hpl
  exact ⟨r, hr, by rw [← hv]⟩

/-- Round trip on a grouped block: parsing and re-serializing a block whose
equal keys are consecutive reproduces it byte-for-byte. -/
theorem kvlm_roundtrip_runs (rs : List Run) (msg : Bytes)
    (hwf : ∀ r ∈ rs, wfKey r.1) (hnd : (rs.map Prod.fst).Nodup) :
    (kvlm_parse (renderKVLM (flattenRuns rs) msg)).bind kvlm_serialize
      = some (renderKVLM (flattenRuns rs) msg) := by
  rw [kvlm_parse_render (flattenRuns rs) msg (by
    intro p hp
    obtain ⟨r, hr, hpr⟩ := flattenRuns_keys rs p hp
    rw [hpr]
    exact hwf r hr)]
  rw [Option.some_bind, foldl_insKV_runs rs [] hnd (by simp), List.nil_append]
  exact kvlm_serialize_dictOfRuns rs msg (fun r hr => (hwf r hr).1)

/-- The runs a dictionary serializes as: one run per key that emits at least
one line (non-message key with a non-empty value list). -/
def runsOfKVLM (d : KVLM) : List Run :=
  d.filterMap fun kv =>
    if kv.1 = [] then none
    else match serVals kv.2 with
      | [] => none
      | v :: vs => some (kv.1, v, vs)

theorem runsOfKVLM_cons_skip (e : Bytes × KVal) (rest : KVLM)
    (h : e.1 = [] ∨ serVals e.2 = []) :
    runsOfKVLM (e :: rest) = runsOfKVLM rest := by
  rw [runsOfKVLM, runsOfKVLM]
  apply List.filterMap_cons_none
  rcases h with h | h
  · rw [if_pos h]
  · by_cases he : e.1 = []
    · rw [if_pos he]
    · rw [if_neg he, h]

theorem runsOfKVLM_cons_emit (e : Bytes × KVal) (rest : KVLM) (v : Bytes)
    (vs : List Bytes) (he : e.1 ≠ []) (hsv : serVals e.2 = v :: vs) :
    runsOfKVLM (e :: rest) = (e.1, v, vs) :: runsOfKVLM rest := by
  rw [runsOfKVLM, runsOfKVLM]
  apply List.filterMap_cons_some
  rw [if_neg he, hsv]

theorem hdrOut_runsOfKVLM (d : KVLM) :
    hdrOut d = renderLines (flattenRuns (runsOfKVLM d)) := by
  induction d with
  | nil => rfl
  | cons e rest ih =>
    rw [hdrOut_cons]
    by_cases he : e.1 = []
    · rw [runsOfKVLM_cons_skip e rest (Or.inl he)]
      have hstep : serStep [] e = [] := by
        rw [serStep, if_pos he]
      rw [hstep, List.nil_append, ih]
    · rcases hsv : serVals e.2 with - | ⟨v, vs⟩
      · rw [runsOfKVLM_cons_skip e rest (Or.inr hsv)]
        have hstep : serStep [] e = [] := by
          rw [serStep_emit e he, hsv]
          rfl
        rw [hstep, List.nil_append, ih]
      · rw [runsOfKVLM_cons_emit e rest v vs he hsv]
        have hflat : flattenRuns ((e.1, v, vs) :: runsOfKVLM rest)
            = runLines (e.1, v, vs) ++ flattenRuns (runsOfKVLM rest) := by
          simp [flattenRuns]
        rw [hflat, renderLines_append, ← ih, serStep_emit e he]
        congr 1
        rw [renderLines_runLines]
        simp only [serVals_valOfRun]
        rw [hsv]

theorem runsOfKVLM_keys_sublist (d : KVLM) :
    ((runsOfKVLM d).map Prod.fst).Sublist (d.map Prod.fst) := by
  induction d with
  | nil => simp [runsOfKVLM]
  | cons e rest ih =>
    by_cases he : e.1 = []
    · rw [runsOfKVLM_cons_skip e rest (Or.inl he), List.map_cons]
      exact List.Sublist.cons e.1 ih
    · rcases hsv : serVals e.2 with - | ⟨v, vs⟩
      · rw [runsOfKVLM_cons_skip e rest (Or.inr hsv), List.map_cons]
        exact List.Sublist.cons e.1 ih
      · rw [runsOfKVLM_cons_emit e rest v vs he hsv, List.map_cons,
          List.map_cons]
        exact List.Sublist.cons₂ e.1 ih

theorem runsOfKVLM_mem (d : KVLM) (r : Run) (hr : r ∈ runsOfKVLM d) :
    ∃ kv ∈ d, r.1 = kv.1 ∧ kv.1 ≠ [] := by
  rw [runsOfKVLM] at hr
  obtain ⟨kv, hkv, hf⟩ := List.mem_filterMap.mp hr
  by_cases he : kv.1 = []
  · rw [if_pos he] at hf
    cases hf
  · rw [if_neg he] at hf
    rcases hsv : serVals kv.2 with - | ⟨v, vs⟩
    · rw [hsv] at hf
      have hf2 : (none : Option Run) = some r := hf
      cases hf2
    · rw [hsv] at hf
      have hf2 : some ((kv.1, v, vs) : Run) = some r := hf
      refine ⟨kv, hkv, ?_, he⟩
      cases hf2
      rfl

/-- A well-formed commit/tag dictionary: duplicate-free keys (it is a Python
dict), usable non-message keys, and a single-valued message entry. -/
def isSingleMsg : Option KVal → Bool
  | some (.single _) => true
  | _ => false

def wfKVLM (d : KVLM) : Prop :=
  (d.map Prod.fst).Nodup ∧ (∀ kv ∈ d, kv.1 ≠ [] → wfKey kv.1)
    ∧ isSingleMsg (kvlmLookup d []) = true

instance (d : KVLM) : Decidable (wfKVLM d) := by
  unfold wfKVLM
  infer_instance

/-- Serializing, parsing back, and serializing again is the identity on the
bytes, for every well-formed dictionary. -/
theorem kvlm_serialize_roundtrip (d : KVLM) (h : wfKVLM d) (s : Bytes)
    (hs : kvlm_serialize d = some s) :
    (kvlm_parse s).bind kvlm_serialize = some s := by
  obtain ⟨hnd, hkeys, hmsg⟩ := h
  rcases hlk : kvlmLookup d [] with - | kv
  · rw [hlk] at hmsg
    simp [isSingleMsg] at hmsg
  rcases kv with v | vs
  case multi =>
    rw [hlk] at hmsg
    simp [isSingleMsg] at hmsg
  case single =>
    rw [kvlm_serialize_eq, hlk] at hs
    simp only [Option.some_inj] at hs
    have hsr : s = renderKVLM (flattenRuns (runsOfKVLM d)) v := by
      rw [← hs, renderKVLM, hdrOut_runsOfKVLM]
    rw [hsr]
    apply kvlm_roundtrip_runs
    · intro r hr
      obtain ⟨kv, hkv, hreq, hne⟩ := runsOfKVLM_mem d r hr
      rw [hreq]
      exact hkeys kv hkv hne
    · exact (runsOfKVLM_keys_sublist d).nodup hnd

end RoundTrip

/-! ## The tree codec: `tree_parse_one`, `tree_parse`, `tree_serialize`. -/

/-- One tree entry as held in memory: mode and path bytes, sha as a 40-char
hex string (`format(int.from_bytes(...), '040x')`). -/
structure GitTreeLeaf where
  mode : Bytes
  path : Bytes
  sha : Bytes
deriving DecidableEq, Repr

/-- `tree_parse_one(raw, start)`: `none` models the failed width assertion
`assert(x - start == 5 or x - start == 6)`. -/
def tree_parse_one (raw : Bytes) (start : Nat) : Option (Nat × GitTreeLeaf) :=
  if bfind raw 32 (start : Int) - (start : Int) = 5
      ∨ bfind raw 32 (start : Int) - (start : Int) = 6 then
    some (((bfind raw 0 (bfind raw 32 (start : Int)) + 21).toNat,
      GitTreeLeaf.mk
        (pyslice raw (start : Int) (bfind raw 32 (start : Int)))
        (pyslice raw (bfind raw 32 (start : Int) + 1)
          (bfind raw 0 (bfind raw 32 (start : Int))))
        (natToHex 40 (bytesToNat
          (pyslice raw (bfind raw 0 (bfind raw 32 (start : Int)) + 1)
            (bfind raw 0 (bfind raw 32 (start : Int)) + 21))))))
  else none

/-- The `while pos < max` loop of `tree_parse`; fuel `raw.length + 1` covers
every terminating run (`pos` strictly increases, else Python loops forever). -/
def tree_parse_go (raw : Bytes) : Nat → Nat → List GitTreeLeaf
    → Option (List GitTreeLeaf)
  | 0, _, _ => none
  | fuel + 1, pos, acc =>
    if pos < raw.length then
      match tree_parse_one raw pos with
      | none => none
      | some (pos2, leaf) => tree_parse_go raw fuel pos2 (acc ++ [leaf])
    else some acc

def tree_parse (raw : Bytes) : Option (List GitTreeLeaf) :=
  tree_parse_go raw (raw.length + 1) 0 []

/-- `tree_serialize` over the items of a tree object.  `none` models
`int(sha, 16)` raising on a non-hex sha, or `to_bytes(20, 'big')` raising
`OverflowError`. -/
def tree_serialize (items : List GitTreeLeaf) : Option Bytes :=
  items.foldl (fun acc i =>
    acc.bind fun a =>
      (hexToNat i.sha).bind fun n =>
        (natToBytes 20 n).map fun bs =>
          a ++ (i.mode ++ 32 :: (i.path ++ 0 :: bs)))
    (some [])

/-- A valid wire-format tree entry: 5- or 6-digit mode, NUL-free path, and a
20-byte digest. -/
def wfTreeEntry (e : Bytes × Bytes × Bytes) : Prop :=
  (e.1.length = 5 ∨ e.1.length = 6) ∧ (∀ b ∈ e.1, 48 ≤ b ∧ b ≤ 57)
    ∧ 0 ∉ e.2.1 ∧ e.2.2.length = 20 ∧ (∀ b ∈ e.2.2, b < 256)

instance (e : Bytes × Bytes × Bytes) : Decidable (wfTreeEntry e) := by
  unfold wfTreeEntry
  infer_instance

/-- The wire form of one entry: `mode SP path NUL digest20`. -/
def renderEntry (e : Bytes × Bytes × Bytes) : Bytes :=
  e.1 ++ 32 :: (e.2.1 ++ 0 :: e.2.2)

/-- The wire form of a tree payload: entries concatenated with no
separators. -/
def renderTree (es : List (Bytes × Bytes × Bytes)) : Bytes :=
  (es.map renderEntry).flatten

/-- The in-memory leaf an entry parses to. -/
def leafOf (e : Bytes × Bytes × Bytes) : GitTreeLeaf :=
  ⟨e.1, e.2.1, natToHex 40 (bytesToNat e.2.2)⟩

section TreeLemmas

theorem natToBytesAux_length (w n : Nat) : (natToBytesAux w n).length = w := by
  induction w generalizing n with
  | zero => rfl
  | succ w ih => simp [natToBytesAux, ih]

theorem natToBytesAux_lt (w n : Nat) (hn : n < 256 ^ w) :
    ∀ b ∈ natToBytesAux w n, b < 256 := by
  induction w generalizing n with
  | zero => simp [natToBytesAux]
  | succ w ih =>
    intro b hb
    rw [natToBytesAux] at hb
    rcases List.mem_cons.mp hb with h1 | h2
    · subst h1
      exact Nat.div_lt_of_lt_mul (by rw [pow_succ] at hn; omega)
    · exact ih _ (Nat.mod_lt _ (by positivity)) b h2

theorem bytesToNat_natToBytesAux (w n : Nat) (hn : n < 256 ^ w) :
    bytesToNat (natToBytesAux w n) = n := by
  induction w generalizing n with
  | zero =>
    simp only [pow_zero] at hn
    simp [natToBytesAux, bytesToNat]
    omega
  | succ w ih =>
    rw [natToBytesAux, bytesToNat_cons, natToBytesAux_length,
      ih _ (Nat.mod_lt _ (by positivity))]
    have := Nat.div_add_mod n (256 ^ w)
    have hcomm : n / 256 ^ w * 256 ^ w = 256 ^ w * (n / 256 ^ w) := by ring
    omega

theorem hexVal_of_isHexDig (c : Nat) (h : isHexDig c = true) :
    ∃ d, hexVal c = some d ∧ d < 16 := by
  unfold isHexDig at h
  simp only [Bool.or_eq_true, Bool.and_eq_true, decide_eq_true_eq] at h
  unfold hexVal
  by_cases h1 : 48 ≤ c ∧ c ≤ 57
  · exact ⟨c - 48, by rw [if_pos h1], by omega⟩
  · by_cases h2 : 97 ≤ c ∧ c ≤ 102
    · exact ⟨c - 87, by rw [if_neg h1, if_pos h2], by omega⟩
    · have h3 : 65 ≤ c ∧ c ≤ 70 := by omega
      exact ⟨c - 55, by rw [if_neg h1, if_neg h2, if_pos h3], by omega⟩

theorem hexToNatAux_isHex (s : Bytes) : ∀ a : Nat,
    (∀ c ∈ s, isHexDig c = true) →
    ∃ n, hexToNatAux (some a) s = some n ∧ n < (a + 1) * 16 ^ s.length := by
  induction s with
  | nil =>
    intro a _
    exact ⟨a, rfl, by simp⟩
  | cons c rest ih =>
    intro a hs
    obtain ⟨d, hd, hd16⟩ := hexVal_of_isHexDig c (hs c (by simp))
    rw [hexToNatAux, hd]
    simp only [Option.some_bind, Option.map_some']
    obtain ⟨n, hn, hnlt⟩ := ih (a * 16 + d) fun x hx => hs x (by simp [hx])
    refine ⟨n, hn, ?_⟩
    calc n < (a * 16 + d + 1) * 16 ^ rest.length := hnlt
      _ ≤ ((a + 1) * 16) * 16 ^ rest.length := by
          apply mul_le_mul_right'
          omega
      _ = (a + 1) * 16 ^ (c :: rest).length := by
          rw [List.length_cons, pow_succ]
          ring

theorem hexToNat_isHex (s : Bytes) (hne : s ≠ [])
    (hs : ∀ c ∈ s, isHexDig c = true) :
    ∃ n, hexToNat s = some n ∧ n < 16 ^ s.length := by
  obtain ⟨n, hn, hlt⟩ := hexToNatAux_isHex s 0 hs
  exact ⟨n, by rw [hexToNat, if_neg hne]; exact hn, by simpa using hlt⟩

theorem pow256_20 : (256 : Nat) ^ 20 = 16 ^ 40 := by norm_num

theorem renderTree_cons (e : Bytes × Bytes × Bytes)
    (es : List (Bytes × Bytes × Bytes)) :
    renderTree (e :: es) = renderEntry e ++ renderTree es := by
  simp [renderTree]

/-- Parsing one rendered entry: the space lands after the mode, the NUL after
the path, and the twenty digest bytes are rehexed. -/
theorem tree_parse_one_spec (raw : Bytes) (pos : Nat)
    (e : Bytes × Bytes × Bytes) (rest : Bytes) (hwf : wfTreeEntry e)
    (hd : raw.drop pos = renderEntry e ++ rest) :
    tree_parse_one raw pos
      = some (pos + (renderEntry e).length, leafOf e) := by
  obtain ⟨hml, hmd, hp0, hdl, hdb⟩ := hwf
  have hd1 : raw.drop pos = e.1 ++ 32 :: (e.2.1 ++ 0 :: (e.2.2 ++ rest)) := by
    rw [hd, renderEntry]
    simp
  have hm32 : 32 ∉ e.1 := fun hc => by have := hmd 32 hc; omega
  have hx : bfind raw 32 (pos : Int) = ((pos + e.1.length : Nat) : Int) :=
    bfind_eq raw 32 pos e.1 _ hd1 hm32
  have hlendrop : (raw.drop pos).length = raw.length - pos :=
    List.length_drop pos raw
  have hposlt : pos < raw.length := by
    have hne0 : (raw.drop pos).length ≠ 0 := by
      rw [hd1]
      simp
    omega
  have hlen1 : raw.length - pos
      = e.1.length + 1 + e.2.1.length + 1 + (e.2.2.length + rest.length) := by
    rw [← hlendrop, hd1]
    simp
    omega
  -- the NUL terminator of the path
  have hdx : raw.drop (pos + e.1.length)
      = (32 :: e.2.1) ++ 0 :: (e.2.2 ++ rest) := by
    rw [← List.drop_drop, hd1, List.drop_left]
    rfl
  have hy : bfind raw 0 ((pos + e.1.length : Nat) : Int)
      = ((pos + e.1.length + 1 + e.2.1.length : Nat) : Int) := by
    have := bfind_eq raw 0 (pos + e.1.length) (32 :: e.2.1) _ hdx
      (by
        simp only [List.mem_cons, not_or]
        exact ⟨by omega, hp0⟩)
    rw [this]
    congr 1
    simp
    omega
  have hmode : pyslice raw (pos : Int) ((pos + e.1.length : Nat) : Int)
      = e.1 := by
    rw [pyslice_nat raw pos (pos + e.1.length) (by omega), List.drop_take]
    have h1 : pos + e.1.length - pos = e.1.length := by omega
    rw [h1, hd1, List.take_left]
  have hdrop2 : raw.drop (pos + e.1.length + 1)
      = e.2.1 ++ 0 :: (e.2.2 ++ rest) := by
    have h2 : pos + e.1.length + 1 = (pos + e.1.length) + 1 := rfl
    rw [h2, ← List.drop_drop, hdx]
    simp
  have hpath : pyslice raw (((pos + e.1.length : Nat) : Int) + 1)
      (((pos + e.1.length + 1 + e.2.1.length : Nat)) : Int) = e.2.1 := by
    have hc1 : (((pos + e.1.length : Nat) : Int) + 1)
        = ((pos + e.1.length + 1 : Nat) : Int) := by push_cast; ring
    rw [hc1, pyslice_nat raw _ _ (by omega), List.drop_take]
    have h3 : pos + e.1.length + 1 + e.2.1.length - (pos + e.1.length + 1)
        = e.2.1.length := by omega
    rw [h3, hdrop2, List.take_left]
  have hdrop3 : raw.drop (pos + e.1.length + 1 + e.2.1.length + 1)
      = e.2.2 ++ rest := by
    have h4 : pos + e.1.length + 1 + e.2.1.length + 1
        = (pos + e.1.length + 1) + (e.2.1.length + 1) := by omega
    rw [h4, ← List.drop_drop, hdrop2]
    have h5 : e.2.1.length + 1 = (e.2.1 ++ [0]).length := by simp
    have h6 : e.2.1 ++ 0 :: (e.2.2 ++ rest) = (e.2.1 ++ [0]) ++ (e.2.2 ++ rest) := by
      simp
    rw [h6, h5, List.drop_left]
  have hsha : pyslice raw
      (((pos + e.1.length + 1 + e.2.1.length : Nat) : Int) + 1)
      (((pos + e.1.length + 1 + e.2.1.length : Nat) : Int) + 21) = e.2.2 := by
    have hc2 : (((pos + e.1.length + 1 + e.2.1.length : Nat) : Int) + 1)
        = ((pos + e.1.length + 1 + e.2.1.length + 1 : Nat) : Int) := by
      push_cast; ring
    have hc3 : (((pos + e.1.length + 1 + e.2.1.length : Nat) : Int) + 21)
        = ((pos + e.1.length + 1 + e.2.1.length + 21 : Nat) : Int) := by
      push_cast; ring
    rw [hc2, hc3, pyslice_nat raw _ _ (by omega), List.drop_take]
    have h7 : pos + e.1.length + 1 + e.2.1.length + 21
        - (pos + e.1.length + 1 + e.2.1.length + 1) = e.2.2.length := by omega
    rw [h7, hdrop3, List.take_left]
  rw [tree_parse_one, if_pos (by
    rw [hx]
    push_cast
    omega)]
  rw [hx, hy, hmode, hpath, hsha]
  have hpos2 : (((pos + e.1.length + 1 + e.2.1.length : Nat) : Int) + 21).toNat
      = pos + (renderEntry e).length := by
    rw [renderEntry]
    simp only [List.length_append, List.length_cons]
    omega
  rw [hpos2]
  rfl

theorem renderTree_length_ge (es : List (Bytes × Bytes × Bytes)) :
    es.length ≤ (renderTree es).length := by
  induction es with
  | nil => simp [renderTree]
  | cons e es ih =>
    rw [renderTree_cons, List.length_append]
    have h1 : 1 ≤ (renderEntry e).length := by
      rw [renderEntry]
      simp only [List.length_append, List.length_cons]
      omega
    simp only [List.length_cons]
    omega

theorem tree_parse_go_spec (raw : Bytes) : ∀ (es : List (Bytes × Bytes × Bytes))
    (pos : Nat) (acc : List GitTreeLeaf) (fuel : Nat),
    (∀ e ∈ es, wfTreeEntry e) →
    raw.drop pos = renderTree es →
    es.length + 1 ≤ fuel →
    tree_parse_go raw fuel pos acc = some (acc ++ es.map leafOf) := by
  intro es
  induction es with
  | nil =>
    intro pos acc fuel _ hd hfuel
    match fuel, hfuel with
    | f + 1, _ =>
      have hge : raw.length ≤ pos := by
        have h0 : (raw.drop pos).length = 0 := by
          rw [hd]
          rfl
        rw [List.length_drop] at h0
        omega
      rw [tree_parse_go, if_neg (by omega)]
      simp

  | cons e es ih =>
    intro pos acc fuel hwf hd hfuel
    match fuel, hfuel with
    | fuel + 1, hfuel =>
      rw [renderTree_cons] at hd
      have hposlt : pos < raw.length := by
        have hne0 : (raw.drop pos).length ≠ 0 := by
          rw [hd]
          simp [renderEntry]
        rw [List.length_drop] at hne0
        omega
      rw [tree_parse_go, if_pos hposlt,
        tree_parse_one_spec raw pos e _ (hwf e (by simp)) hd]
      have hdrop : raw.drop (pos + (renderEntry e).length) = renderTree es := by
        rw [← List.drop_drop, hd, List.drop_left]
      show tree_parse_go raw fuel (pos + (renderEntry e).length)
          (acc ++ [leafOf e]) = some (acc ++ List.map leafOf (e :: es))
      rw [ih (pos + (renderEntry e).length) (acc ++ [leafOf e]) fuel
        (fun q hq => hwf q (by simp [hq])) hdrop (by
          have : (e :: es).length = es.length + 1 := by simp
          omega)]
      simp

theorem tree_serialize_foldl (es : List (Bytes × Bytes × Bytes))
    (hwf : ∀ e ∈ es, wfTreeEntry e) : ∀ a : Bytes,
    (es.map leafOf).foldl (fun acc i =>
      acc.bind fun a =>
        (hexToNat i.sha).bind fun n =>
          (natToBytes 20 n).map fun bs =>
            a ++ (i.mode ++ 32 :: (i.path ++ 0 :: bs)))
      (some a) = some (a ++ renderTree es) := by
  induction es with
  | nil =>
    intro a
    simp [renderTree]
  | cons e es ih =>
    intro a
    obtain ⟨hml, hmd, hp0, hdl, hdb⟩ := hwf e (by simp)
    have hn : bytesToNat e.2.2 < 256 ^ 20 := by
      have := bytesToNat_lt e.2.2 hdb
      rw [hdl] at this
      exact this
    rw [List.map_cons, List.foldl_cons]
    simp only [leafOf, Option.some_bind]
    rw [hexToNat_natToHex 40 (bytesToNat e.2.2) (by omega)
      (by rw [← pow256_20]; exact hn)]
    simp only [Option.some_bind]
    rw [natToBytes, if_pos hn]
    simp only [Option.map_some']
    rw [show natToBytesAux 20 (bytesToNat e.2.2) = e.2.2 by
      rw [← hdl]
      exact natToBytesAux_bytesToNat e.2.2 hdb]
    rw [ih (fun q hq => hwf q (by simp [hq]))]
    rw [renderTree_cons, renderEntry]
    simp

/-- `tree_serialize ∘ tree_parse` is the identity on every valid tree
payload. -/
theorem tree_roundtrip (es : List (Bytes × Bytes × Bytes))
    (hwf : ∀ e ∈ es, wfTreeEntry e) :
    (tree_parse (renderTree es)).bind tree_serialize
      = some (renderTree es) := by
  rw [tree_parse, tree_parse_go_spec (renderTree es) es 0 [] _ hwf (by simp)
    (by
      have := renderTree_length_ge es
      omega)]
  rw [Option.some_bind, List.nil_append, tree_serialize,
    tree_serialize_foldl es hwf []]
  rfl

/-- A well-formed in-memory tree leaf: valid mode and path, and a 40-char
hex sha. -/
def wfLeaf (i : GitTreeLeaf) : Prop :=
  (i.mode.length = 5 ∨ i.mode.length = 6) ∧ (∀ b ∈ i.mode, 48 ≤ b ∧ b ≤ 57)
    ∧ 0 ∉ i.path ∧ i.sha.length = 40 ∧ (∀ c ∈ i.sha, isHexDig c = true)

instance (i : GitTreeLeaf) : Decidable (wfLeaf i) := by
  unfold wfLeaf
  infer_instance

/-- The wire entry a well-formed leaf serializes to. -/
def entryOfLeaf (i : GitTreeLeaf) : Bytes × Bytes × Bytes :=
  (i.mode, i.path, natToBytesAux 20 ((hexToNat i.sha).getD 0))

theorem entryOfLeaf_wf (i : GitTreeLeaf) (h : wfLeaf i) :
    wfTreeEntry (entryOfLeaf i) := by
  obtain ⟨hml, hmd, hp0, hsl, hsh⟩ := h
  obtain ⟨n, hn, hlt⟩ := hexToNat_isHex i.sha (by
    intro hc
    rw [hc] at hsl
    simp at hsl) hsh
  rw [hsl, ← pow256_20] at hlt
  refine ⟨hml, hmd, hp0, ?_, ?_⟩
  · exact natToBytesAux_length _ _
  · rw [entryOfLeaf]
    simp only [hn, Option.getD_some]
    exact natToBytesAux_lt 20 n hlt

theorem tree_serialize_wf_foldl (items : List GitTreeLeaf)
    (hwf : ∀ i ∈ items, wfLeaf i) : ∀ a : Bytes,
    items.foldl (fun acc i =>
      acc.bind fun a =>
        (hexToNat i.sha).bind fun n =>
          (natToBytes 20 n).map fun bs =>
            a ++ (i.mode ++ 32 :: (i.path ++ 0 :: bs)))
      (some a) = some (a ++ renderTree (items.map entryOfLeaf)) := by
  induction items with
  | nil =>
    intro a
    simp [renderTree]
  | cons i items ih =>
    intro a
    obtain ⟨hml, hmd, hp0, hsl, hsh⟩ := hwf i (by simp)
    obtain ⟨n, hn, hlt⟩ := hexToNat_isHex i.sha (by
      intro hc
      rw [hc] at hsl
      simp at hsl) hsh
    rw [hsl, ← pow256_20] at hlt
    rw [List.foldl_cons]
    simp only [Option.some_bind, hn]
    rw [natToBytes, if_pos hlt]
    simp only [Option.some_bind, Option.map_some']
    rw [ih (fun q hq => hwf q (by simp [hq]))]
    rw [List.map_cons, renderTree_cons, renderEntry, entryOfLeaf]
    simp only [hn, Option.getD_some]
    simp

/-- Serializing, parsing back, and serializing again is the identity on the
bytes, for every list of well-formed tree leaves. -/
theorem tree_serialize_roundtrip (items : List GitTreeLeaf)
    (hwf : ∀ i ∈ items, wfLeaf i) (s : Bytes)
    (hs : tree_serialize items = some s) :
    (tree_parse s).bind tree_serialize = some s := by
  rw [tree_serialize, tree_serialize_wf_foldl items hwf []] at hs
  have hsr : s = renderTree (items.map entryOfLeaf) := by
    have := Option.some_inj.mp hs
    rw [← this]
    rfl
  rw [hsr]
  exact tree_roundtrip (items.map entryOfLeaf) (by
    intro e he
    obtain ⟨i, hi, hie⟩ := List.mem_map.mp he
    rw [← hie]
    exact entryOfLeaf_wf i (hwf i hi))

end TreeLemmas

/-! ## SHA-1 (`hashlib.sha1(...).hexdigest()`), implemented from FIPS 180-4
over byte lists, 32-bit words as naturals reduced mod `2 ^ 32`. -/

/-- Split into chunks of `k + 1` bytes (used with 63 for blocks, 3 for
words). -/
def chunksOf1 (k : Nat) : Bytes → List Bytes
  | [] => []
  | b :: rest => (b :: rest.take k) :: chunksOf1 k (rest.drop k)
termination_by l => l.length
decreasing_by
  simp only [List.length_cons, List.length_drop]
  omega

def w32 (n : Nat) : Nat := n % 4294967296

def rotl32 (s n : Nat) : Nat := w32 ((n <<< s) ||| (n >>> (32 - s)))

def sha1F (t b c d : Nat) : Nat :=
  if t < 20 then (b &&& c) ||| ((b ^^^ 4294967295) &&& d)
  else if t < 40 then b ^^^ c ^^^ d
  else if t < 60 then (b &&& c) ||| (b &&& d) ||| (c &&& d)
  else b ^^^ c ^^^ d

def sha1K (t : Nat) : Nat :=
  if t < 20 then 1518500249
  else if t < 40 then 1859775393
  else if t < 60 then 2400959708
  else 3395469782

/-- Message-schedule extension; `ws` holds the words most recent first. -/
def sha1Sched (ws : List Nat) : Nat → List Nat
  | 0 => ws
  | k + 1 =>
    sha1Sched (rotl32 1 ((ws.getD 2 0) ^^^ (ws.getD 7 0) ^^^ (ws.getD 13 0)
      ^^^ (ws.getD 15 0)) :: ws) k

/-- One compression round. -/
def sha1Round (st : Nat × Nat × Nat × Nat × Nat) (t w : Nat) :
    Nat × Nat × Nat × Nat × Nat :=
  (w32 (rotl32 5 st.1 + sha1F t st.2.1 st.2.2.1 st.2.2.2.1 + st.2.2.2.2
      + sha1K t + w),
    st.1, rotl32 30 st.2.1, st.2.2.1, st.2.2.2.1)

/-- Process one 64-byte block. -/
def sha1Compress (h : Nat × Nat × Nat × Nat × Nat) (block : Bytes) :
    Nat × Nat × Nat × Nat × Nat :=
  let ws := (sha1Sched ((chunksOf1 3 block).map bytesToNat).reverse 64).reverse
  let f := (List.range 80).foldl (fun st t => sha1Round st t (ws.getD t 0)) h
  (w32 (h.1 + f.1), w32 (h.2.1 + f.2.1), w32 (h.2.2.1 + f.2.2.1),
    w32 (h.2.2.2.1 + f.2.2.2.1), w32 (h.2.2.2.2 + f.2.2.2.2))

/-- SHA-1 digest of a byte string, as a 160-bit natural number. -/
def sha1 (m : Bytes) : Nat :=
  let padded := m ++ 128 :: (List.replicate ((119 - m.length % 64) % 64) 0
    ++ natToBytesAux 8 ((8 * m.length) % 18446744073709551616))
  let h := (chunksOf1 63 padded).foldl sha1Compress
    (1732584193, 4023233417, 2562383102, 271733878, 3285377520)
  (((h.1 * 4294967296 + h.2.1) * 4294967296 + h.2.2.1) * 4294967296
      + h.2.2.2.1) * 4294967296 + h.2.2.2.2

/-- `hashlib.sha1(m).hexdigest()` as 40 hex-digit bytes. -/
def sha1hex (m : Bytes) : Bytes := natToHex 40 (sha1 m)

theorem sha1_lt (m : Bytes) : sha1 m < 16 ^ 40 := by
  rw [sha1]
  have hw : ∀ a : Nat, w32 a < 4294967296 := fun a => Nat.mod_lt _ (by omega)
  set h := (chunksOf1 63 (m ++ 128 :: (List.replicate ((119 - m.length % 64) % 64) 0
    ++ natToBytesAux 8 ((8 * m.length) % 18446744073709551616)))).foldl sha1Compress
    (1732584193, 4023233417, 2562383102, 271733878, 3285377520) with hh
  have h5 : h.1 < 4294967296 ∧ h.2.1 < 4294967296 ∧ h.2.2.1 < 4294967296
      ∧ h.2.2.2.1 < 4294967296 ∧ h.2.2.2.2 < 4294967296 := by
    rcases hch : chunksOf1 63 (m ++ 128 :: (List.replicate ((119 - m.length % 64) % 64) 0
      ++ natToBytesAux 8 ((8 * m.length) % 18446744073709551616))) with - | ⟨c, cs⟩
    · rw [hh, hch]
      norm_num
    · rw [hh, hch]
      have hlast : ∀ (l : List Bytes) (st : Nat × Nat × Nat × Nat × Nat),
          st.1 < 4294967296 ∧ st.2.1 < 4294967296 ∧ st.2.2.1 < 4294967296
            ∧ st.2.2.2.1 < 4294967296 ∧ st.2.2.2.2 < 4294967296 →
          (l.foldl sha1Compress st).1 < 4294967296
            ∧ (l.foldl sha1Compress st).2.1 < 4294967296
            ∧ (l.foldl sha1Compress st).2.2.1 < 4294967296
            ∧ (l.foldl sha1Compress st).2.2.2.1 < 4294967296
            ∧ (l.foldl sha1Compress st).2.2.2.2 < 4294967296 := by
        intro l
        induction l with
        | nil => intro st hst; exact hst
        | cons c cs ih =>
          intro st _
          rw [List.foldl_cons]
          exact ih (sha1Compress st c) ⟨hw _, hw _, hw _, hw _, hw _⟩
      exact hlast (c :: cs) _ (by norm_num)
  obtain ⟨h1, h2, h3, h4, h5'⟩ := h5
  have : (16 : Nat) ^ 40 = 4294967296 ^ 5 := by norm_num
  rw [this]
  nlinarith [pow_pos (show 0 < 4294967296 by omega) 5]

/-! ## The object store: `object_read` / `object_write` over a modelled
filesystem. -/

/-- The four object kinds with their payloads (`GitBlob.blobdata`,
`GitCommit.kvlm`, `GitTag.kvlm`, `GitTree.items`). -/
inductive GitObj where
  | blob (blobdata : Bytes)
  | commit (kvlm : KVLM)
  | tag (kvlm : KVLM)
  | tree (items : List GitTreeLeaf)
deriving DecidableEq, Repr

/-- `obj.fmt`: the ASCII kind tag. -/
def objFmt : GitObj → Bytes
  | .blob _ => [98, 108, 111, 98]
  | .commit _ => [99, 111, 109, 109, 105, 116]
  | .tag _ => [116, 97, 103]
  | .tree _ => [116, 114, 101, 101]

/-- `obj.serialize()`; `none` models the exceptions the KVLM and tree
serializers can raise. -/
def obj_serialize : GitObj → Option Bytes
  | .blob d => some d
  | .commit kv => kvlm_serialize kv
  | .tag kv => kvlm_serialize kv
  | .tree items => tree_serialize items

/-- A path below the repository metadata directory, as `/`-joined bytes. -/
abbrev FPath := Bytes

/-- The filesystem below `.git`: files with contents, and the set of
directories that exist.  Writes prepend, reads take the first match. -/
structure FS where
  files : List (FPath × Bytes)
  dirs : List FPath
deriving DecidableEq, Repr

def lookupFile (fs : FS) (p : FPath) : Option Bytes :=
  (fs.files.find? fun e => e.1 = p).map Prod.snd

def isFile (fs : FS) (p : FPath) : Bool :=
  fs.files.any fun e => e.1 = p

def writeFile (fs : FS) (p : FPath) (c : Bytes) : FS :=
  ⟨(p, c) :: fs.files, fs.dirs⟩

/-- Modelled contract of the external zlib library.  Every claim depends
only on `decompress (compress x) = x`, so the model takes the stream to be
the data itself; the DEFLATE bit stream is outside the program. -/
def zlib_compress (b : Bytes) : Bytes := b

def zlib_decompress (b : Bytes) : Bytes := b

/-- `os.path.join` of two relative components. -/
def joinP (a b : FPath) : FPath := a ++ 47 :: b

/-- The literal path component `objects`. -/
def objectsDir : FPath := [111, 98, 106, 101, 99, 116, 115]

/-- `objects/<sha[0:2]>`. -/
def objDirPath (sha : Bytes) : FPath := joinP objectsDir (List.take 2 sha)

/-- `objects/<sha[0:2]>/<sha[2:]>`. -/
def objFilePath (sha : Bytes) : FPath :=
  joinP (objDirPath sha) (List.drop 2 sha)

/-- `repo_dir(repo, *path, mkdir)`: returns the path if the directory
exists (creating it when `mk`), `some (none, fs)` when absent without
`mkdir`, and `none` for the "Not a directory" exception when the path
exists as a file. -/
def repo_dir (fs : FS) (p : FPath) (mk : Bool) : Option (Option FPath × FS) :=
  if fs.dirs.contains p then some (some p, fs)
  else if isFile fs p then none
  else if mk then some (some p, ⟨fs.files, p :: fs.dirs⟩)
  else some (none, fs)

/-- The framed representation `<fmt> SP <len> NUL <payload>` hashed and
stored by `object_write`. -/
def objFrame (obj : GitObj) (data : Bytes) : Bytes :=
  objFmt obj ++ 32 :: (natToDec data.length ++ 0 :: data)

/-- `object_write(obj, actually_write)`: serialize, frame, hash, then
(optionally) create `objects/xx/` and write the compressed frame.  `none`
models serializer exceptions and the filesystem-shape exception of
`repo_file`. -/
def object_write (obj : GitObj) (actually_write : Bool) (fs : FS) :
    Option (Bytes × FS) :=
  (obj_serialize obj).bind fun data =>
    if actually_write then
      (repo_dir fs (objDirPath (sha1hex (objFrame obj data))) true).map fun r =>
        (sha1hex (objFrame obj data),
          writeFile r.2 (objFilePath (sha1hex (objFrame obj data)))
            (zlib_compress (objFrame obj data)))
    else some (sha1hex (objFrame obj data), fs)

/-- `object_read(repo, sha)`: locate `objects/xx/yyyy…`, inflate, split the
frame at the first SP and NUL, check the declared size, dispatch on the
kind.  `none` models every raised exception (missing path, malformed
length, unknown kind, nested parser errors). -/
def object_read (fs : FS) (sha : Bytes) : Option GitObj :=
  (repo_dir fs (objDirPath sha) false).bind fun r =>
    match r.1 with
    | none => none
    | some _ =>
      (lookupFile fs (objFilePath sha)).bind fun comp =>
        let raw := zlib_decompress comp
        (pyInt (pyslice raw (bfind raw 32 0) (bfind raw 0 (bfind raw 32 0)))).bind
          fun size =>
          if (size : Int) ≠ (raw.length : Int) - bfind raw 0 (bfind raw 32 0) - 1 then
            none
          else
            if pyslice raw 0 (bfind raw 32 0) = [99, 111, 109, 109, 105, 116] then
              (kvlm_parse (pyslice raw (bfind raw 0 (bfind raw 32 0) + 1)
                (raw.length : Int))).map .commit
            else if pyslice raw 0 (bfind raw 32 0) = [116, 114, 101, 101] then
              (tree_parse (pyslice raw (bfind raw 0 (bfind raw 32 0) + 1)
                (raw.length : Int))).map .tree
            else if pyslice raw 0 (bfind raw 32 0) = [116, 97, 103] then
              (kvlm_parse (pyslice raw (bfind raw 0 (bfind raw 32 0) + 1)
                (raw.length : Int))).map .tag
            else if pyslice raw 0 (bfind raw 32 0) = [98, 108, 111, 98] then
              some (.blob (pyslice raw (bfind raw 0 (bfind raw 32 0) + 1)
                (raw.length : Int)))
            else none

/-- A well-formed object: the payload invariants of §3 of the spec. -/
def wfObj : GitObj → Prop
  | .blob _ => True
  | .commit kv => wfKVLM kv
  | .tag kv => wfKVLM kv
  | .tree items => ∀ i ∈ items, wfLeaf i

instance (o : GitObj) : Decidable (wfObj o) := by
  cases o <;> (unfold wfObj; infer_instance)

section ObjectLemmas

theorem zlib_roundtrip (b : Bytes) : zlib_decompress (zlib_compress b) = b := rfl

theorem lookupFile_writeFile (fs : FS) (p : FPath) (c : Bytes) :
    lookupFile (writeFile fs p c) p = some c := by
  simp [lookupFile, writeFile]

/-- Reading a stored frame `<fmt> SP <len> NUL <payload>`: the header is
split back apart, the size check passes, and the kind dispatch receives the
payload. -/
theorem object_read_frame (fs : FS) (sha : Bytes) (fmtB data : Bytes)
    (hdir : fs.dirs.contains (objDirPath sha) = true)
    (hfile : lookupFile fs (objFilePath sha)
      = some (zlib_compress (fmtB ++ 32 :: (natToDec data.length ++ 0 :: data))))
    (h32 : 32 ∉ fmtB) :
    object_read fs sha =
      (if fmtB = [99, 111, 109, 109, 105, 116] then (kvlm_parse data).map .commit
       else if fmtB = [116, 114, 101, 101] then (tree_parse data).map .tree
       else if fmtB = [116, 97, 103] then (kvlm_parse data).map .tag
       else if fmtB = [98, 108, 111, 98] then some (.blob data)
       else none) := by
  have hdec : ∀ c ∈ natToDec data.length, 48 ≤ c ∧ c ≤ 57 :=
    natToDecAux_digit _ _
  rw [object_read, repo_dir, if_pos hdir]
  simp only [Option.some_bind]
  rw [hfile]
  simp only [Option.some_bind, zlib_roundtrip]
  set raw := fmtB ++ 32 :: (natToDec data.length ++ 0 :: data) with hraw
  have hlenraw : raw.length
      = fmtB.length + 1 + (natToDec data.length).length + 1 + data.length := by
    rw [hraw]
    simp
    omega
  have hx : bfind raw 32 (0 : Int) = ((fmtB.length : Nat) : Int) := by
    have := bfind_eq raw 32 0 fmtB _ (by rw [List.drop_zero]) h32
    simpa using this
  have hdx : raw.drop fmtB.length
      = (32 :: natToDec data.length) ++ 0 :: data := by
    rw [hraw]
    rw [show fmtB ++ 32 :: (natToDec data.length ++ 0 :: data)
      = fmtB ++ ((32 :: natToDec data.length) ++ 0 :: data) by simp]
    rw [List.drop_left]
  have hy : bfind raw 0 ((fmtB.length : Nat) : Int)
      = ((fmtB.length + 1 + (natToDec data.length).length : Nat) : Int) := by
    have := bfind_eq raw 0 fmtB.length (32 :: natToDec data.length) _ hdx
      (by
        simp only [List.mem_cons, not_or]
        refine ⟨by omega, ?_⟩
        intro hc
        have := hdec 0 hc
        omega)
    rw [this]
    congr 1
    simp
    omega
  have hsz : pyslice raw ((fmtB.length : Nat) : Int)
      ((fmtB.length + 1 + (natToDec data.length).length : Nat) : Int)
      = 32 :: natToDec data.length := by
    rw [pyslice_nat raw _ _ (by omega), List.drop_take]
    have h1 : fmtB.length + 1 + (natToDec data.length).length - fmtB.length
        = (32 :: natToDec data.length).length := by
      simp
      omega
    rw [h1, hdx, List.take_left]
  have hfmt : pyslice raw (0 : Int) ((fmtB.length : Nat) : Int) = fmtB := by
    rw [show (0 : Int) = ((0 : Nat) : Int) from rfl,
      pyslice_nat raw 0 fmtB.length (by omega), List.drop_zero, hraw,
      List.take_left]
  have hdata : pyslice raw
      (((fmtB.length + 1 + (natToDec data.length).length : Nat) : Int) + 1)
      ((raw.length : Nat) : Int) = data := by
    have hc1 : (((fmtB.length + 1 + (natToDec data.length).length : Nat) : Int) + 1)
        = ((fmtB.length + 1 + (natToDec data.length).length + 1 : Nat) : Int) := by
      push_cast
      ring
    rw [hc1, pyslice_drop raw _ (by omega)]
    rw [show fmtB.length + 1 + (natToDec data.length).length + 1
      = fmtB.length + ((32 :: natToDec data.length) ++ [0]).length by simp; omega]
    rw [← List.drop_drop, hdx]
    rw [show (32 :: natToDec data.length) ++ 0 :: data
      = ((32 :: natToDec data.length) ++ [0]) ++ data by simp]
    rw [List.drop_left]
  rw [hx, hy, hsz, pyInt_space_natToDec, Option.some_bind]
  rw [if_neg (by
    push_cast
    omega)]
  rw [hfmt, hdata]

/-- A successful `object_write` with `actually_write=true`: the id is the
SHA-1 of the frame, the compressed frame lands at `objects/xx/yyyy…`, and
the files already present are kept. -/
theorem object_write_true (obj : GitObj) (fs : FS) (data : Bytes)
    (hser : obj_serialize obj = some data)
    (hnc : isFile fs (objDirPath (sha1hex (objFrame obj data))) = false) :
    ∃ fs2 : FS,
      object_write obj true fs = some (sha1hex (objFrame obj data),
        writeFile fs2 (objFilePath (sha1hex (objFrame obj data)))
          (zlib_compress (objFrame obj data)))
      ∧ fs2.dirs.contains (objDirPath (sha1hex (objFrame obj data))) = true
      ∧ fs2.files = fs.files := by
  rw [object_write, hser, Option.some_bind, if_pos rfl, repo_dir]
  by_cases hc : fs.dirs.contains (objDirPath (sha1hex (objFrame obj data))) = true
  · rw [if_pos hc]
    exact ⟨fs, rfl, hc, rfl⟩
  · rw [if_neg hc, if_neg (by rw [hnc]; simp), if_pos rfl]
    refine ⟨⟨fs.files, objDirPath (sha1hex (objFrame obj data)) :: fs.dirs⟩,
      rfl, by simp, rfl⟩

end ObjectLemmas

/-! ## The reference store and the revision resolver. -/

/-- The bytes of `'ref: '`. -/
def refMarker : Bytes := [114, 101, 102, 58, 32]

/-- `ref_resolve(repo, ref)`: read the ref file, drop its final character
(`fp.read()[:-1]`), recurse on a `ref: ` indirection, else return the rest.
`none` models a missing file and the `RecursionError` a cyclic chain ends
in; the fuel is Python's recursion depth. -/
def ref_resolve (fs : FS) : Nat → FPath → Option Bytes
  | 0, _ => none
  | fuel + 1, ref =>
    (lookupFile fs ref).bind fun content =>
      if refMarker.isPrefixOf (pyslice content 0 (-1)) then
        ref_resolve fs fuel
          (pyslice (pyslice content 0 (-1)) 5
            (((pyslice content 0 (-1)).length : Nat) : Int))
      else some (pyslice content 0 (-1))

/-- ASCII lowercasing, as Python `str.lower` acts on these names. -/
def pyLower (s : Bytes) : Bytes :=
  s.map fun c => if 65 ≤ c ∧ c ≤ 90 then c + 32 else c

/-- The regex `^[0-9A-Fa-f]{4,40}$` of `resolve_shorthash`. -/
def hashReMatch (s : Bytes) : Bool :=
  decide (4 ≤ s.length) && decide (s.length ≤ 40) && s.all isHexDig

/-- `os.listdir` on a directory of the modelled filesystem: the names of
the files directly inside it, in filesystem order (the listing order is
unspecified in Python too). -/
def FS.listdir (fs : FS) (d : FPath) : List Bytes :=
  fs.files.filterMap fun e =>
    if (d ++ [47]).isPrefixOf e.1 ∧ 47 ∉ e.1.drop (d.length + 1) then
      some (e.1.drop (d.length + 1))
    else none

/-- `resolve_shorthash(repo, name)`: a full 40-char hex name is lowercased
and returned with no filesystem access; a 4–39 digit prefix is matched
against the listing of `objects/xx`; anything else falls through to
`None`. -/
def resolve_shorthash (fs : FS) (name : Bytes) : Option Bytes :=
  if hashReMatch name then
    if name.length = 40 then some (pyLower name)
    else
      match repo_dir fs (joinP objectsDir (List.take 2 (pyLower name))) false with
      | none => none
      | some (none, _) => none
      | some (some p, _) =>
        ((fs.listdir p).find? fun f =>
          (List.drop 2 (pyLower name)).isPrefixOf f).map
          fun f => List.take 2 (pyLower name) ++ f
  else none

/-- The literal prefixes `refs/heads/`, `refs/remotes/`, `refs/tags/`. -/
def refsHeads : FPath := [114, 101, 102, 115, 47, 104, 101, 97, 100, 115, 47]

def refsRemotes : FPath :=
  [114, 101, 102, 115, 47, 114, 101, 109, 111, 116, 101, 115, 47]

def refsTags : FPath := [114, 101, 102, 115, 47, 116, 97, 103, 115, 47]

/-- `resolve_named_ref(repo, name)`: resolve the first existing candidate
path; fall through to `None` when none exists. -/
def resolve_named_ref (fs : FS) (fuel : Nat) (name : Bytes) : Option Bytes :=
  match [name, refsHeads ++ name, refsRemotes ++ name,
      refsTags ++ name].find? (fun p => isFile fs p) with
  | some p => ref_resolve fs fuel p
  | none => none

/-- `object_resolve(repo, name)`: short/full hash first, then named ref. -/
def object_resolve (fs : FS) (fuel : Nat) (name : Bytes) : Option Bytes :=
  match resolve_shorthash fs name with
  | some sha => some sha
  | none => resolve_named_ref fs fuel name

/-- The key bytes `b'object'` of a tag and `b'tree'` of a commit. -/
def objectKey : Bytes := [111, 98, 106, 101, 99, 116]

def treeKey : Bytes := [116, 114, 101, 101]

/-- The `while True` loop of `object_find`.  `some (some sha)`: an id was
returned; `some none`: Python returned `None`; `none`: a raised exception
(read failure, missing or list-valued key) or fuel exhaustion standing for
a non-terminating follow chain. -/
def object_find_loop (fs : FS) : Nat → Bytes → Bytes → Bool
    → Option (Option Bytes)
  | 0, _, _, _ => none
  | fuel + 1, sha, f, follow =>
    (object_read fs sha).bind fun obj =>
      if objFmt obj = f then some (some sha)
      else if !follow then some none
      else
        match obj with
        | .tag kv =>
          match kvlmLookup kv objectKey with
          | some (.single v) => object_find_loop fs fuel v f follow
          | _ => none
        | .commit kv =>
          if f = treeKey then
            match kvlmLookup kv treeKey with
            | some (.single v) => object_find_loop fs fuel v f follow
            | _ => none
          else some none
        | _ => some none

/-- `object_find(repo, name, fmt, follow)`.  `none` at the top level models
the raised `No such reference` (and any exception propagating out of
resolution). -/
def object_find (fs : FS) (rfuel lfuel : Nat) (name : Bytes)
    (fmt : Option Bytes) (follow : Bool) : Option (Option Bytes) :=
  match object_resolve fs rfuel name with
  | none => none
  | some sha =>
    match fmt with
    | none => some (some sha)
    | some f => object_find_loop fs lfuel sha f follow

/-- `tree_checkout(repo, tree, path)`: for each entry read the child; a
tree makes a directory (`os.mkdir`, which raises if it exists) and
recurses, a blob is written to `dest`; any other kind is silently skipped.
Fuel bounds the recursion depth; `none` is a raised exception or fuel
exhaustion. -/
def tree_checkout : Nat → FS → List GitTreeLeaf → FPath → Option FS
  | 0, _, _, _ => none
  | _ + 1, fs, [], _ => some fs
  | fuel + 1, fs, item :: rest, path =>
    (object_read fs item.sha).bind fun obj =>
      match obj with
      | .tree sub =>
        if fs.dirs.contains (joinP path item.path)
            || isFile fs (joinP path item.path) then none
        else
          (tree_checkout fuel ⟨fs.files, joinP path item.path :: fs.dirs⟩ sub
            (joinP path item.path)).bind fun fs2 =>
            tree_checkout fuel fs2 rest path
      | .blob d =>
        tree_checkout fuel (writeFile fs (joinP path item.path) d) rest path
      | _ => tree_checkout fuel fs rest path

/-- A well-formed reference store (§3 of the spec): every file under the
metadata directory that the resolver may touch holds either a 40-char hex
hash plus newline, or an indirection line starting with `ref: `. -/
def wfRefStore (fs : FS) : Prop :=
  ∀ e ∈ fs.files,
    (e.2.length = 41 ∧ ∀ c ∈ e.2.take 40, isHexDig c = true)
    ∨ refMarker.isPrefixOf e.2.dropLast = true

instance (fs : FS) : Decidable (wfRefStore fs) := by
  unfold wfRefStore
  infer_instance

section RefLemmas

theorem pyidx_neg_one (n : Nat) (hn : 0 < n) : pyidx n (-1) = n - 1 := by
  unfold pyidx
  rw [if_pos (show (-1 : Int) < 0 by omega), if_neg (by omega)]
  have h1 : ((-1 : Int) + n).toNat = n - 1 := by omega
  rw [h1, min_eq_left (by omega)]

theorem pyslice_neg_one (s : Bytes) : pyslice s 0 (-1) = s.dropLast := by
  rw [pyslice]
  have h0 : pyidx s.length 0 = 0 := by
    have := pyidx_le s.length 0 (by omega)
    simpa using this
  rw [h0, List.drop_zero]
  rcases s with - | ⟨b, rest⟩
  · rfl
  · rw [pyidx_neg_one _ (by simp), ← List.dropLast_eq_take]

theorem lookupFile_mem (fs : FS) (p : FPath) (c : Bytes)
    (h : lookupFile fs p = some c) : (p, c) ∈ fs.files := by
  rw [lookupFile] at h
  rcases hf : fs.files.find? fun e => e.1 = p with - | e
  · rw [hf] at h
    cases h
  · rw [hf] at h
    have hmem := List.mem_of_find?_eq_some hf
    have hpred := List.find?_some hf
    simp only [decide_eq_true_eq] at hpred
    simp only [Option.map_some', Option.some_inj] at h
    have : e = (p, c) := by
      rcases e with ⟨e1, e2⟩
      simp only at hpred h
      rw [hpred, h]
    rw [← this]
    exact hmem

/-- Under a well-formed ref store, `ref_resolve` never returns anything but
a full 40-character hex hash. -/
theorem ref_resolve_wf (fs : FS) (hwf : wfRefStore fs) : ∀ (fuel : Nat)
    (ref : FPath) (res : Bytes), ref_resolve fs fuel ref = some res →
    res.length = 40 ∧ ∀ c ∈ res, isHexDig c = true := by
  intro fuel
  induction fuel with
  | zero =>
    intro ref res h
    cases h
  | succ fuel ih =>
    intro ref res h
    rw [ref_resolve] at h
    rcases hf : lookupFile fs ref with - | content
    · rw [hf] at h
      cases h
    · rw [hf, Option.some_bind] at h
      rcases hwf (ref, content) (lookupFile_mem fs ref content hf) with
        ⟨hlen, hhex⟩ | hpre
      · -- a direct hash file: the newline is stripped, 40 hex chars remain
        have hdl : content.dropLast = content.take 40 := by
          rw [List.dropLast_eq_take, hlen]
        have hnp : refMarker.isPrefixOf (pyslice content 0 (-1)) = false := by
          rw [pyslice_neg_one, hdl]
          by_contra hx
          have hx2 : refMarker.isPrefixOf (content.take 40) = true := by
            revert hx
            cases refMarker.isPrefixOf (content.take 40) <;> simp
          obtain ⟨t, ht⟩ := List.isPrefixOf_iff_prefix.mp hx2
          have h114 : (114 : Nat) ∈ content.take 40 := by
            rw [← ht]
            simp [refMarker]
          have := hhex 114 h114
          simp [isHexDig] at this
        rw [if_neg (by rw [hnp]; simp)] at h
        have hres : res = content.take 40 := by
          rw [← hdl, ← pyslice_neg_one]
          exact (Option.some_inj.mp h).symm
        subst hres
        refine ⟨?_, hhex⟩
        rw [List.length_take, hlen]
        norm_num
      · rw [pyslice_neg_one] at h
        rw [if_pos hpre] at h
        exact ih _ _ h

/-- A missing ref file is an error. -/
theorem ref_resolve_missing (fs : FS) (fuel : Nat) (ref : FPath)
    (h : lookupFile fs ref = none) : ref_resolve fs (fuel + 1) ref = none := by
  rw [ref_resolve, h]
  rfl

/-- The one-file store whose single ref indirects to itself. -/
def cycleFS : FS := ⟨[([88], [114, 101, 102, 58, 32, 88, 10])], []⟩

/-- A cyclic indirection chain never produces a result: the model runs out
of fuel the way Python dies with `RecursionError`. -/
theorem ref_resolve_cycle : ∀ fuel : Nat,
    ref_resolve cycleFS fuel [88] = none := by
  intro fuel
  induction fuel with
  | zero => rfl
  | succ fuel ih =>
    rw [ref_resolve]
    have h1 : lookupFile cycleFS [88]
        = some [114, 101, 102, 58, 32, 88, 10] := rfl
    rw [h1, Option.some_bind,
      if_pos (by decide),
      show pyslice (pyslice [114, 101, 102, 58, 32, 88, 10] 0 (-1)) 5
        (((pyslice ([114, 101, 102, 58, 32, 88, 10] : Bytes) 0 (-1)).length
          : Nat) : Int) = [88] by decide]
    exact ih

end RefLemmas

/-! ## The claims. -/

/-- C3 (counterexample).  The round trip `kvlm_serialize ∘ kvlm_parse` is
NOT the identity on every validly framed header block: the block
`a 1\nb 2\na 3\n\n` (three well-formed lines, empty message) re-serializes
with the two `a` lines regrouped, `a 1\na 3\nb 2\n\n`. -/
theorem claim_c3_counterexample :
    (∀ p ∈ ([([97], [49]), ([98], [50]), ([97], [51])] :
        List (Bytes × Bytes)), wfKey p.1)
    ∧ renderKVLM [([97], [49]), ([98], [50]), ([97], [51])] []
        = [97, 32, 49, 10, 98, 32, 50, 10, 97, 32, 51, 10, 10]
    ∧ (kvlm_parse [97, 32, 49, 10, 98, 32, 50, 10, 97, 32, 51, 10, 10]).bind
        kvlm_serialize
        ≠ some [97, 32, 49, 10, 98, 32, 50, 10, 97, 32, 51, 10, 10] :=
  ⟨by decide, by decide, by decide⟩

/-- C3 (amended).  `kvlm_serialize ∘ kvlm_parse` is the identity on every
validly framed header block in which the lines of equal keys are
consecutive (a list of runs with pairwise distinct well-formed keys);
repeated keys parse to a list in file order, and re-serialization preserves
that order and multiplicity. -/
theorem claim_c3_kvlm_roundtrip_grouped (rs : List Run) (msg : Bytes)
    (hwf : ∀ r ∈ rs, wfKey r.1) (hnd : (rs.map Prod.fst).Nodup) :
    (kvlm_parse (renderKVLM (flattenRuns rs) msg)).bind kvlm_serialize
      = some (renderKVLM (flattenRuns rs) msg) :=
  kvlm_roundtrip_runs rs msg hwf hnd

/-- C3 (witness).  A commit-shaped block with two consecutive `parent`
lines round-trips byte-for-byte. -/
theorem claim_c3_witness :
    (kvlm_parse (renderKVLM (flattenRuns
        [([116, 114, 101, 101], [97], []),
         ([112, 97, 114, 101, 110, 116], [112], [[113]])]) [109])).bind
      kvlm_serialize
      = some (renderKVLM (flattenRuns
        [([116, 114, 101, 101], [97], []),
         ([112, 97, 114, 101, 110, 116], [112], [[113]])]) [109]) :=
  claim_c3_kvlm_roundtrip_grouped
    [([116, 114, 101, 101], [97], []),
     ([112, 97, 114, 101, 110, 116], [112], [[113]])] [109]
    (by decide) (by decide)

/-- C1.  Writing any serializable object with `actually_write=True` to a
store that does not collide with an existing file, then reading the
returned id back, yields an object that re-serializes to exactly the
original serialization. -/
theorem claim_c1_write_read_roundtrip (obj : GitObj) (fs : FS) (data : Bytes)
    (hwf : wfObj obj) (hser : obj_serialize obj = some data)
    (hnc : isFile fs (objDirPath (sha1hex (objFrame obj data))) = false) :
    ∃ (fs2 : FS) (o2 : GitObj),
      object_write obj true fs = some (sha1hex (objFrame obj data), fs2)
      ∧ object_read fs2 (sha1hex (objFrame obj data)) = some o2
      ∧ obj_serialize o2 = obj_serialize obj := by
  obtain ⟨fs1, hw, hdir, -⟩ := object_write_true obj fs data hser hnc
  have hread := object_read_frame
    (writeFile fs1 (objFilePath (sha1hex (objFrame obj data)))
      (zlib_compress (objFrame obj data)))
    (sha1hex (objFrame obj data)) (objFmt obj) data hdir
    (lookupFile_writeFile fs1 _ _)
    (by cases obj <;> simp [objFmt])
  cases obj with
  | blob d =>
    simp only [objFmt] at hread
    simp at hread
    cases hser
    exact ⟨_, .blob data, hw, hread, rfl⟩
  | commit kv =>
    simp only [objFmt] at hread
    simp at hread
    obtain ⟨d2, hp, hs2⟩ := Option.bind_eq_some.mp
      (kvlm_serialize_roundtrip kv hwf data hser)
    refine ⟨_, .commit d2, hw, ?_, ?_⟩
    · rw [hread, hp]; rfl
    · show kvlm_serialize d2 = kvlm_serialize kv
      rw [hs2]; exact hser.symm
  | tag kv =>
    simp only [objFmt] at hread
    simp at hread
    obtain ⟨d2, hp, hs2⟩ := Option.bind_eq_some.mp
      (kvlm_serialize_roundtrip kv hwf data hser)
    refine ⟨_, .tag d2, hw, ?_, ?_⟩
    · rw [hread, hp]; rfl
    · show kvlm_serialize d2 = kvlm_serialize kv
      rw [hs2]; exact hser.symm
  | tree items =>
    simp only [objFmt] at hread
    simp at hread
    obtain ⟨d2, hp, hs2⟩ := Option.bind_eq_some.mp
      (tree_serialize_roundtrip items hwf data hser)
    refine ⟨_, .tree d2, hw, ?_, ?_⟩
    · rw [hread, hp]; rfl
    · show tree_serialize d2 = tree_serialize items
      rw [hs2]; exact hser.symm

/-- C1 (witness).  The blob `hi` round-trips through the empty store. -/
theorem claim_c1_witness :
    ∃ (fs2 : FS) (o2 : GitObj),
      object_write (GitObj.blob [104, 105]) true ⟨[], []⟩
        = some (sha1hex (objFrame (GitObj.blob [104, 105]) [104, 105]), fs2)
      ∧ object_read fs2
          (sha1hex (objFrame (GitObj.blob [104, 105]) [104, 105])) = some o2
      ∧ obj_serialize o2 = obj_serialize (GitObj.blob [104, 105]) :=
  claim_c1_write_read_roundtrip (GitObj.blob [104, 105]) ⟨[], []⟩ [104, 105]
    True.intro rfl rfl

/-- C2.  The id `object_write` returns is the 40-character lowercase-hex
SHA-1 of the framed representation `<fmt> SP <len> NUL <payload>`, computed
before compression; the store keeps that frame (compressed) at
`objects/<id[0:2]>/<id[2:]>`, and decompressing it returns the hashed
frame. -/
theorem claim_c2_content_addressing (obj : GitObj) (fs : FS) (data : Bytes)
    (hser : obj_serialize obj = some data)
    (hnc : isFile fs (objDirPath (sha1hex (objFrame obj data))) = false) :
    ∃ fs2 : FS,
      object_write obj true fs = some (sha1hex (objFrame obj data), fs2)
      ∧ (sha1hex (objFrame obj data)).length = 40
      ∧ (∀ c ∈ sha1hex (objFrame obj data), isHexDig c = true)
      ∧ lookupFile fs2 (objFilePath (sha1hex (objFrame obj data)))
        = some (zlib_compress (objFrame obj data))
      ∧ zlib_decompress (zlib_compress (objFrame obj data))
        = objFrame obj data := by
  obtain ⟨fs1, hw, -, -⟩ := object_write_true obj fs data hser hnc
  exact ⟨_, hw, natToHex_length 40 _,
    natToHex_mem_isHexDig 40 _ (sha1_lt _),
    lookupFile_writeFile fs1 _ _, zlib_roundtrip _⟩

/-- C2 (witness).  Instantiated at the blob `hi` over the empty store. -/
theorem claim_c2_witness :
    ∃ fs2 : FS,
      object_write (GitObj.blob [104, 105]) true ⟨[], []⟩
        = some (sha1hex (objFrame (GitObj.blob [104, 105]) [104, 105]), fs2)
      ∧ (sha1hex (objFrame (GitObj.blob [104, 105]) [104, 105])).length = 40
      ∧ (∀ c ∈ sha1hex (objFrame (GitObj.blob [104, 105]) [104, 105]),
          isHexDig c = true)
      ∧ lookupFile fs2
          (objFilePath (sha1hex (objFrame (GitObj.blob [104, 105]) [104, 105])))
        = some (zlib_compress (objFrame (GitObj.blob [104, 105]) [104, 105]))
      ∧ zlib_decompress
          (zlib_compress (objFrame (GitObj.blob [104, 105]) [104, 105]))
        = objFrame (GitObj.blob [104, 105]) [104, 105] :=
  claim_c2_content_addressing (GitObj.blob [104, 105]) ⟨[], []⟩ [104, 105]
    rfl rfl

/-- C9.  With `actually_write=False`, `object_write` computes and returns
the very id a real write would return, and leaves the filesystem
untouched. -/
theorem claim_c9_dry_run (obj : GitObj) (fs : FS) (data : Bytes)
    (hser : obj_serialize obj = some data) :
    object_write obj false fs = some (sha1hex (objFrame obj data), fs)
    ∧ ∀ (fs2 : FS) (p : Bytes × FS), object_write obj true fs2 = some p →
        p.1 = sha1hex (objFrame obj data) := by
  constructor
  · rw [object_write, hser, Option.some_bind, if_neg (by simp)]
  · intro fs2 p h
    rw [object_write, hser, Option.some_bind, if_pos rfl] at h
    obtain ⟨r, -, hr⟩ := Option.map_eq_some'.mp h
    rw [← hr]

/-- C9 (witness).  Instantiated at the blob `h` over the empty store. -/
theorem claim_c9_witness :
    object_write (GitObj.blob [104]) false ⟨[], []⟩
      = some (sha1hex (objFrame (GitObj.blob [104]) [104]), (⟨[], []⟩ : FS))
    ∧ ∀ (fs2 : FS) (p : Bytes × FS),
        object_write (GitObj.blob [104]) true fs2 = some p →
        p.1 = sha1hex (objFrame (GitObj.blob [104]) [104]) :=
  claim_c9_dry_run (GitObj.blob [104]) ⟨[], []⟩ [104] rfl

/-- C4.  `tree_serialize ∘ tree_parse` is the identity on every valid tree
payload: a concatenation of entries `mode SP path NUL digest20` with a 5- or
6-digit mode and a NUL-free path. -/
theorem claim_c4_tree_roundtrip (es : List (Bytes × Bytes × Bytes))
    (hwf : ∀ e ∈ es, wfTreeEntry e) :
    (tree_parse (renderTree es)).bind tree_serialize
      = some (renderTree es) :=
  tree_roundtrip es hwf

/-- C4 (witness).  A two-entry payload with both mode widths round-trips. -/
theorem claim_c4_witness :
    (tree_parse (renderTree
        [([52, 48, 48, 48, 48], [97], List.replicate 20 7),
         ([49, 48, 48, 54, 52, 52], [98], List.replicate 20 255)])).bind
      tree_serialize
      = some (renderTree
        [([52, 48, 48, 48, 48], [97], List.replicate 20 7),
         ([49, 48, 48, 54, 52, 52], [98], List.replicate 20 255)]) :=
  claim_c4_tree_roundtrip
    [([52, 48, 48, 48, 48], [97], List.replicate 20 7),
     ([49, 48, 48, 54, 52, 52], [98], List.replicate 20 255)]
    (by decide)

/-- C5.  On a well-formed reference store, `ref_resolve` either errors or
returns a full 40-character hex hash, never a partial or non-hex result;
a missing ref file is an error, and a cyclic indirection chain is an error
(the fuel standing for Python's recursion limit runs out). -/
theorem claim_c5_ref_resolve_hex_or_error (fs : FS) (fuel : Nat)
    (ref : FPath) (res : Bytes) :
    (wfRefStore fs → ref_resolve fs fuel ref = some res →
      res.length = 40 ∧ ∀ c ∈ res, isHexDig c = true)
    ∧ (lookupFile fs ref = none → ref_resolve fs (fuel + 1) ref = none)
    ∧ ref_resolve cycleFS fuel [88] = none := by
  refine ⟨fun hwf h => ref_resolve_wf fs hwf fuel ref res h,
    fun h => ref_resolve_missing fs fuel ref h,
    ref_resolve_cycle fuel⟩

/-- C5 (witness).  `HEAD → refs/heads/main → hash` resolves to the stored
40-hex id on a concrete well-formed store, and the self-cycle errors. -/
theorem claim_c5_witness :
    (List.replicate 40 97).length = 40
    ∧ (∀ c ∈ List.replicate 40 97, isHexDig c = true)
    ∧ ref_resolve cycleFS 9 [88] = none :=
  have h := claim_c5_ref_resolve_hex_or_error
    ⟨[([72, 69, 65, 68],
        [114, 101, 102, 58, 32, 114, 101, 102, 115, 47, 104, 101, 97, 100,
          115, 47, 109, 97, 105, 110, 10]),
      ([114, 101, 102, 115, 47, 104, 101, 97, 100, 115, 47, 109, 97, 105,
          110], List.replicate 40 97 ++ [10])], []⟩
    2 [72, 69, 65, 68] (List.replicate 40 97)
  have hres := h.1 (by decide) (by decide)
  ⟨hres.1, hres.2,
    (claim_c5_ref_resolve_hex_or_error ⟨[], []⟩ 9 [] []).2.2⟩

/-- C6.  A 40-character hex name resolves to its lowercasing with no
filesystem access at all (the result is the same over every store), and a
hex name shorter than four characters never matches as a short hash. -/
theorem claim_c6_shorthash (name : Bytes) :
    (name.length = 40 → (∀ c ∈ name, isHexDig c = true) →
      ∀ fs : FS, resolve_shorthash fs name = some (pyLower name))
    ∧ (name.length = 40 → (∀ c ∈ name, isHexDig c = true) →
      ∀ (fs : FS) (rfuel : Nat),
        object_resolve fs rfuel name = some (pyLower name))
    ∧ (name.length < 4 → ∀ fs : FS, resolve_shorthash fs name = none) := by
  have hfull : name.length = 40 → (∀ c ∈ name, isHexDig c = true) →
      ∀ fs : FS, resolve_shorthash fs name = some (pyLower name) := by
    intro hlen hhex fs
    rw [resolve_shorthash, if_pos (by
      rw [hashReMatch]
      simp only [Bool.and_eq_true, decide_eq_true_eq, List.all_eq_true]
      exact ⟨⟨by omega, by omega⟩, fun c hc => hhex c hc⟩), if_pos hlen]
  refine ⟨hfull, ?_, ?_⟩
  · intro hlen hhex fs rfuel
    rw [object_resolve, hfull hlen hhex fs]
  · intro hlen fs
    rw [resolve_shorthash, if_neg (by
      rw [hashReMatch]
      simp only [Bool.and_eq_true, decide_eq_true_eq, List.all_eq_true, not_and]
      intro h4
      omega)]

/-- C6 (witness).  The all-`A` 40-hex name resolves to all-`a` on the empty
store; the 3-character hex name `abc` does not match. -/
theorem claim_c6_witness :
    resolve_shorthash ⟨[], []⟩ (List.replicate 40 65)
      = some (pyLower (List.replicate 40 65))
    ∧ resolve_shorthash ⟨[], []⟩ [97, 98, 99] = none :=
  ⟨(claim_c6_shorthash (List.replicate 40 65)).1 (by decide) (by decide) _,
    (claim_c6_shorthash [97, 98, 99]).2.2 (by decide) _⟩

/-- The hex id `aaaa…` (40 times) of the concrete stored tag below. -/
def tagSha : Bytes := List.replicate 40 97

/-- The frame `tag SP 1 NUL LF` of a tag whose payload is the minimal KVLM
block (empty message only). -/
def tagFrame : Bytes := [116, 97, 103, 32, 49, 0, 10]

/-- A store holding exactly that tag object under `objects/aa/aa…`. -/
def tagFS : FS :=
  ⟨[(objFilePath tagSha, zlib_compress tagFrame)], [objDirPath tagSha]⟩

/-- The hex id `bbbb…` (40 times) of the concrete stored blob below. -/
def blobSha : Bytes := List.replicate 40 98

/-- The frame `blob SP 0 NUL` of the empty blob. -/
def blobFrame : Bytes := [98, 108, 111, 98, 32, 48, 0]

/-- A store holding exactly that blob under `objects/bb/bb…`. -/
def blobFS : FS :=
  ⟨[(objFilePath blobSha, zlib_compress blobFrame)], [objDirPath blobSha]⟩

/-- C7.  Contrary to the claim's id-or-error dichotomy, `object_find`
completes and returns Python `None` (`some none` in the embedding:
neither an object id nor a raised error) both on a kind mismatch with
`follow=False` (asking a stored tag for a blob) and when type-following
reaches a blob (asking a stored blob for a commit with `follow=True`);
the matching-kind call on the same store does return the id. -/
theorem claim_c7_find_returns_none :
    object_find tagFS 1 6 tagSha (some [98, 108, 111, 98]) false = some none
    ∧ object_find blobFS 1 6 blobSha (some [99, 111, 109, 109, 105, 116]) true
      = some none
    ∧ object_find tagFS 1 6 tagSha (some [116, 97, 103]) true
      = some (some tagSha) :=
  ⟨by decide, by decide, by decide⟩

/-- C8.  Contrary to the spec, `tree_checkout` does NOT fail with
`malformed` on a tree entry whose target is neither a tree nor a blob: on a
store whose only object is a tag, checking out a tree entry pointing at it
completes without error and without touching the filesystem (the tag entry
is silently skipped by the trailing `match` case). -/
theorem claim_c8_checkout_skips_unknown_kind :
    object_read tagFS tagSha = some (GitObj.tag [([], KVal.single [])])
    ∧ tree_checkout 2 tagFS [⟨[52, 48, 48, 48, 48], [102], tagSha⟩] [100]
      = some tagFS :=
  ⟨by decide, by decide⟩

/-- C10.  `ref_resolve` strips exactly the final character of the ref
file's content whether or not it is a newline; in particular a direct ref
file holding a 40-character hash with no trailing newline resolves to only
its first 39 characters. -/
theorem claim_c10_ref_resolve_drops_last (fs : FS) (ref : FPath)
    (content : Bytes) (fuel : Nat)
    (hf : lookupFile fs ref = some content)
    (hnp : refMarker.isPrefixOf content.dropLast = false) :
    ref_resolve fs (fuel + 1) ref = some content.dropLast
    ∧ (content.length = 40 → content.dropLast = content.take 39) := by
  constructor
  · rw [ref_resolve, hf, Option.some_bind, pyslice_neg_one,
      if_neg (by rw [hnp]; simp)]
  · intro h40
    rw [List.dropLast_eq_take, h40]

/-- C10 (witness).  A ref file holding 40 hex characters and no newline
resolves to its first 39 characters. -/
theorem claim_c10_witness :
    ref_resolve ⟨[([104], List.replicate 40 98)], []⟩ 1 [104]
      = some (List.replicate 40 98).dropLast
    ∧ (List.replicate 40 98).dropLast = (List.replicate 40 98).take 39 :=
  have h := claim_c10_ref_resolve_drops_last ⟨[([104], List.replicate 40 98)], []⟩
    [104] (List.replicate 40 98) 0 (by decide) (by decide)
  ⟨h.1, h.2 (by decide)⟩

end Wyag
